import Mathlib

/-!
# Verification of the novel-processor pipeline core

Shallow embedding of the orchestration core of the `novel-processor`
package (token chunker, bounded worker-pool scheduler, batched
extraction, entity aggregation, and the merge/consolidation stage),
together with proofs and refutations of the specified properties.

Conventions of the embedding:
* JavaScript strings are modelled as Lean `String` (equivalently their
  `List Char` of code points) and numbers as `Nat`.
* A JavaScript `Map` is modelled as an insertion-ordered association
  list: `set` overwrites in place or appends, `get` searches by key.
* A JavaScript `Set` is modelled as an insertion-ordered duplicate-free
  list built by `insertUnique`.
* The external tokenizer (`js-tiktoken`) is an opaque dependency of the
  repository; it is modelled as an abstract `Encoder` (encode/decode
  pair), instantiated with a character-level encoder for concrete runs.
* The external generation capability (LLM) is modelled as an abstract
  function argument.
-/

namespace NovelProc

/-- A JavaScript `Map` lookup: first entry with the given key. -/
def jsMapGet {α : Type} (m : List (String × α)) (k : String) : Option α :=
  (m.find? (fun p => p.1 == k)).map (fun p => p.2)

/-- A JavaScript `Map.set`: overwrite the entry in place if the key is
present, otherwise append the new entry at the end (insertion order). -/
def jsMapSet {α : Type} (m : List (String × α)) (k : String) (v : α) : List (String × α) :=
  if (m.map (fun p => p.1)).contains k then
    m.map (fun p => if p.1 = k then (k, v) else p)
  else
    m ++ [(k, v)]

/-- A JavaScript `Set.add` on an insertion-ordered list: append the
element if it is not already present. -/
def insertUnique {α : Type} [DecidableEq α] (l : List α) (a : α) : List α :=
  if a ∈ l then l else l ++ [a]

theorem mem_of_jsMapGet {α : Type} {m : List (String × α)} {k : String} {v : α}
    (h : jsMapGet m k = some v) : ∃ p ∈ m, p.1 = k ∧ p.2 = v := by
  unfold jsMapGet at h
  cases hf : m.find? (fun p => p.1 == k) with
  | none => simp [hf] at h
  | some p =>
    refine ⟨p, List.mem_of_find?_eq_some hf, ?_, ?_⟩
    · have := List.find?_some hf
      simpa using this
    · simp [hf] at h
      exact h

theorem jsMapGet_mem_values {α : Type} {m : List (String × α)} {k : String} {v : α}
    (h : jsMapGet m k = some v) : v ∈ m.map (fun p => p.2) := by
  obtain ⟨p, hp, _, hv⟩ := mem_of_jsMapGet h
  exact List.mem_map.mpr ⟨p, hp, hv⟩

theorem jsMapSet_values_subset {α : Type} {m : List (String × α)} {k : String} {v : α}
    {x : α} (h : x ∈ (jsMapSet m k v).map (fun p => p.2)) :
    x ∈ m.map (fun p => p.2) ∨ x = v := by
  unfold jsMapSet at h
  split at h
  · rw [List.map_map] at h
    obtain ⟨p, hp, hx⟩ := List.mem_map.mp h
    by_cases hk : p.1 = k
    · right
      simp [Function.comp, hk] at hx
      exact hx.symm
    · left
      simp [Function.comp, hk] at hx
      exact List.mem_map.mpr ⟨p, hp, hx⟩
  · rw [List.map_append] at h
    rcases List.mem_append.mp h with h1 | h2
    · exact Or.inl h1
    · right
      simpa using h2

theorem mem_insertUnique {α : Type} [DecidableEq α] {l : List α} {a x : α}
    (h : x ∈ insertUnique l a) : x ∈ l ∨ x = a := by
  unfold insertUnique at h
  by_cases ha : a ∈ l
  · simp [ha] at h
    exact Or.inl h
  · simp [ha] at h
    exact h

theorem insertUnique_nodup {α : Type} [DecidableEq α] {l : List α} (hl : l.Nodup) (a : α) :
    (insertUnique l a).Nodup := by
  unfold insertUnique
  by_cases ha : a ∈ l
  · simpa [ha] using hl
  · simp only [ha, if_neg, not_false_iff]
    rw [List.nodup_append]
    exact ⟨hl, List.nodup_singleton a, by simpa using ha⟩

/-! ## Decimal rendering of numbers (JavaScript `String(n)`) and
`padStart`, used by the merge stage to mint global event identifiers
of the form `E001`. -/

/-- Little-endian decimal digits of `n` as characters, with an explicit
structural fuel so the kernel can evaluate it. -/
def natToDigitsAux : ℕ → ℕ → List Char
  | 0, _ => []
  | _ + 1, 0 => []
  | fuel + 1, n + 1 => Nat.digitChar ((n + 1) % 10) :: natToDigitsAux fuel ((n + 1) / 10)

/-- JavaScript `String(n)` for a natural number. -/
def natToString (n : ℕ) : String :=
  if n = 0 then "0" else String.mk (natToDigitsAux n n).reverse

/-- JavaScript `s.padStart(width, c)`. -/
def padStart (s : String) (width : ℕ) (c : Char) : String :=
  String.mk (List.replicate (width - s.data.length) c ++ s.data)

/-- The global event identifier minted by `mergeAnalyses`:
`` `E${String(counter).padStart(3, "0")}` ``. -/
def globalEventId (n : ℕ) : String :=
  "E" ++ padStart (natToString n) 3 '0'

/-- Decimal value of a digit character. -/
def digitVal (c : Char) : ℕ := c.toNat - 48

/-- Value of a little-endian list of digit characters. -/
def fromDigitsChar (l : List Char) : ℕ :=
  l.foldr (fun c acc => digitVal c + 10 * acc) 0

theorem digitVal_digitChar {d : ℕ} (h : d < 10) : digitVal (Nat.digitChar d) = d := by
  interval_cases d <;> rfl

theorem fromDigitsChar_natToDigitsAux :
    ∀ fuel n, n ≤ fuel → fromDigitsChar (natToDigitsAux fuel n) = n := by
  intro fuel
  induction fuel with
  | zero => intro n hn; interval_cases n; rfl
  | succ f ih =>
    intro n hn
    match n with
    | 0 => rfl
    | m + 1 =>
      have hdiv : (m + 1) / 10 ≤ f := by
        have h1 : (m + 1) / 10 < m + 1 := Nat.div_lt_self (Nat.succ_pos m) (by norm_num)
        omega
      show digitVal (Nat.digitChar ((m + 1) % 10)) + 10 * fromDigitsChar (natToDigitsAux f ((m + 1) / 10)) = m + 1
      rw [ih _ hdiv, digitVal_digitChar (Nat.mod_lt _ (by norm_num))]
      exact Nat.mod_add_div (m + 1) 10

/-- The most significant digit of a positive number is a nonzero digit
character. -/
theorem natToDigitsAux_getLast :
    ∀ fuel n, 1 ≤ n → n ≤ fuel →
      ∃ d, 1 ≤ d ∧ d < 10 ∧ (natToDigitsAux fuel n).getLast? = some (Nat.digitChar d) := by
  intro fuel
  induction fuel with
  | zero => intro n h1 h2; omega
  | succ f ih =>
    intro n h1 _
    match n, h1 with
    | m + 1, _ =>
      by_cases hq : (m + 1) / 10 = 0
      · refine ⟨(m + 1) % 10, ?_, Nat.mod_lt _ (by norm_num), ?_⟩
        · have := Nat.div_add_mod (m + 1) 10
          omega
        · have hrec : natToDigitsAux f ((m + 1) / 10) = [] := by
            rw [hq]; cases f <;> rfl
          show (Nat.digitChar ((m + 1) % 10) :: natToDigitsAux f ((m + 1) / 10)).getLast? = _
          rw [hrec]
          rfl
      · have hdiv : (m + 1) / 10 ≤ f := by
          have h1 : (m + 1) / 10 < m + 1 := Nat.div_lt_self (Nat.succ_pos m) (by norm_num)
          omega
        obtain ⟨d, hd1, hd2, hd3⟩ := ih ((m + 1) / 10) (by omega) hdiv
        refine ⟨d, hd1, hd2, ?_⟩
        show (Nat.digitChar ((m + 1) % 10) :: natToDigitsAux f ((m + 1) / 10)).getLast? = _
        cases hrec : natToDigitsAux f ((m + 1) / 10) with
        | nil => rw [hrec] at hd3; simp at hd3
        | cons x xs =>
          rw [hrec] at hd3
          rw [List.getLast?_cons_cons]
          exact hd3

theorem digitChar_ne_zero_char {d : ℕ} (h1 : 1 ≤ d) (h2 : d < 10) :
    Nat.digitChar d ≠ '0' := by
  interval_cases d <;> decide

/-- Dropping leading zero padding recovers the unpadded digit string. -/
theorem dropWhile_replicate_zero (k : ℕ) (l : List Char) :
    (List.replicate k '0' ++ l).dropWhile (fun c => c == '0') =
      l.dropWhile (fun c => c == '0') := by
  induction k with
  | zero => rfl
  | succ n ih =>
    rw [List.replicate_succ, List.cons_append, List.dropWhile_cons_of_pos (by decide)]
    exact ih

theorem dropWhile_of_head_ne_zero {c : Char} (l : List Char) (h : c ≠ '0') :
    (c :: l).dropWhile (fun x => x == '0') = c :: l := by
  rw [List.dropWhile_cons_of_neg]
  simpa using h

/-- The digit string of a positive number, with leading-zero padding
stripped away. -/
theorem dropWhile_pad_digits {n : ℕ} (hn : 1 ≤ n) (k : ℕ) :
    (List.replicate k '0' ++ (natToDigitsAux n n).reverse).dropWhile (fun c => c == '0') =
      (natToDigitsAux n n).reverse := by
  rw [dropWhile_replicate_zero]
  obtain ⟨d, hd1, hd2, hd3⟩ := natToDigitsAux_getLast n n hn le_rfl
  cases hrev : (natToDigitsAux n n).reverse with
  | nil =>
    have : natToDigitsAux n n = [] := by
      have := congrArg List.reverse hrev
      simpa using this
    rw [this] at hd3
    simp at hd3
  | cons x xs =>
    have hx : x = Nat.digitChar d := by
      have hhead : (natToDigitsAux n n).reverse.head? = (natToDigitsAux n n).getLast? := by
        rw [List.head?_reverse]
      rw [hrev, hd3] at hhead
      simpa using hhead
    rw [dropWhile_of_head_ne_zero]
    rw [hx]
    exact digitChar_ne_zero_char hd1 hd2

/-- `globalEventId` is injective on positive counters: distinct counter
values always mint distinct global event identifiers. -/
theorem globalEventId_injective {a b : ℕ} (ha : 1 ≤ a) (hb : 1 ≤ b)
    (h : globalEventId a = globalEventId b) : a = b := by
  have hdata : (globalEventId a).data = (globalEventId b).data := by rw [h]
  have hna : natToString a = String.mk (natToDigitsAux a a).reverse := by
    unfold natToString
    rw [if_neg (by omega)]
  have hnb : natToString b = String.mk (natToDigitsAux b b).reverse := by
    unfold natToString
    rw [if_neg (by omega)]
  unfold globalEventId padStart at hdata
  rw [hna, hnb] at hdata
  simp only [String.data_append] at hdata
  have hE : ∀ s : String, ("E" ++ s).data = 'E' :: s.data := by
    intro s; rfl
  have hdata2 :
      List.replicate (3 - (natToDigitsAux a a).reverse.length) '0' ++ (natToDigitsAux a a).reverse =
        List.replicate (3 - (natToDigitsAux b b).reverse.length) '0' ++ (natToDigitsAux b b).reverse := by
    have := hdata
    simp only [String.data_append] at this
    injection this with h1 h2
  have hstrip := congrArg (fun l => l.dropWhile (fun c => c == '0')) hdata2
  simp only at hstrip
  rw [dropWhile_pad_digits ha, dropWhile_pad_digits hb] at hstrip
  have hlists : natToDigitsAux a a = natToDigitsAux b b :=
    List.reverse_injective hstrip
  have hva := fromDigitsChar_natToDigitsAux a a le_rfl
  have hvb := fromDigitsChar_natToDigitsAux b b le_rfl
  rw [← hva, ← hvb, hlists]

/-! ## Data model of the analysis results (types.ts)

`Event` and `CausalRelation` have the same shape in both analyzer
variants; the two variants differ in their character records and chunk
analysis bundles, modelled in the `Modules` (modules/analyzer.ts) and
`Legacy` (analyzer.ts) namespaces. -/

/-- An extracted event (EventSchema). -/
structure Event where
  id : String
  summary : String
  description : String
  chapter : String
  location : Option String
  time : Option String
  characters : List String
  emotionalTone : String
deriving DecidableEq

/-- A causal relation between two events (CausalRelationSchema). -/
structure CausalRelation where
  fromEventId : String
  toEventId : String
  strength : String
  description : String
deriving DecidableEq

/-- A detected scene break (sceneBreaks entries). -/
structure SceneBreak where
  position : String
  reason : String
deriving DecidableEq

/-- A raw discovered character mention `{name, description}`. -/
structure Mention where
  name : String
  description : String
deriving DecidableEq

/-- The shared body of the per-chunk event loop of both `mergeAnalyses`
variants: mint the next global id, record it in the chunk-local id map,
and append the re-identified event to the global event list.  The state
is `(chunkEventIdMap, allEvents, eventCounter)`. -/
def mergeStep (st : List (String × String) × List Event × ℕ) (e : Event) :
    List (String × String) × List Event × ℕ :=
  let globalId := globalEventId st.2.2
  (jsMapSet st.1 e.id globalId, st.2.1 ++ [{ e with id := globalId }], st.2.2 + 1)

namespace Modules

/-- Importance level of a canonical character (z.enum). -/
inductive Importance where
  | major
  | minor
  | extra
deriving DecidableEq

/-- A canonical character record (types.ts CharacterSchema). -/
structure Character where
  id : String
  name : String
  aliases : List String
  description : String
  firstAppearance : Option String
  importance : Importance
  visualTraits : Option String
deriving DecidableEq

/-- A lightweight per-chunk character reference (CharacterInChunkSchema). -/
structure CharacterInChunk where
  id : String
  name : String
  role : String
deriving DecidableEq

/-- A per-chunk analysis bundle (modules variant of ChunkAnalysisSchema). -/
structure ChunkAnalysis where
  summary : String
  events : List Event
  causalRelations : List CausalRelation
  characters : List CharacterInChunk
  discoveredCharacters : List Mention
  sceneBreaks : List SceneBreak
deriving DecidableEq

/-- The accumulator threaded through the chunk loop of `mergeAnalyses`. -/
structure MergeAcc where
  allEvents : List Event
  allRelations : List CausalRelation
  counter : ℕ
deriving DecidableEq

/-- Remapping of one causal relation through the chunk-local id map:
the relation is kept (with both endpoints rewritten) only when both
lookups succeed, and dropped otherwise. -/
def remapRelation (m : List (String × String)) (racc : List CausalRelation)
    (r : CausalRelation) : List CausalRelation :=
  match jsMapGet m r.fromEventId, jsMapGet m r.toEventId with
  | some fromGlobal, some toGlobal =>
      racc ++ [{ r with fromEventId := fromGlobal, toEventId := toGlobal }]
  | _, _ => racc

/-- One iteration of the chunk loop of `mergeAnalyses`
(modules/analyzer.ts): rebuild the chunk-local id map from this chunk's
events only, append the re-identified events, then remap (or drop) this
chunk's causal relations. -/
def mergeChunk (st : MergeAcc) (analysis : ChunkAnalysis) : MergeAcc :=
  let folded := analysis.events.foldl mergeStep ([], st.allEvents, st.counter)
  { allEvents := folded.2.1
    allRelations := analysis.causalRelations.foldl (remapRelation folded.1) st.allRelations
    counter := folded.2.2 }

/-- The output of `mergeAnalyses` (modules/analyzer.ts). -/
structure MergeResult where
  fullSummary : String
  allEvents : List Event
  allCharacters : List (String × Character)
  allRelations : List CausalRelation
deriving DecidableEq

/-- `mergeAnalyses` from modules/analyzer.ts: a single left-to-right
pass over the chunk analyses with a global event counter starting at 1,
plus the canonical character map keyed by character id. -/
def mergeAnalyses (analyses : List ChunkAnalysis) (globalCharacters : List Character) :
    MergeResult :=
  let acc := analyses.foldl mergeChunk ⟨[], [], 1⟩
  { fullSummary := String.intercalate "\n\n" (analyses.map (fun a => a.summary))
    allEvents := acc.allEvents
    allCharacters := globalCharacters.foldl (fun m c => jsMapSet m c.id c) []
    allRelations := acc.allRelations }

end Modules

namespace Legacy

/-- A character record of the legacy analyzer (no id field). -/
structure Character where
  name : String
  aliases : List String
  description : String
  firstAppearance : Option String
deriving DecidableEq

/-- A per-chunk analysis bundle (legacy variant of ChunkAnalysisSchema). -/
structure ChunkAnalysis where
  summary : String
  events : List Event
  characters : List Character
  causalRelations : List CausalRelation
  sceneBreaks : List SceneBreak
deriving DecidableEq

/-- Merging one chunk character into the name-keyed character map:
a new name is inserted as-is, a repeated name has the alias sets
unioned (JavaScript `Set` union, insertion order). -/
def mergeCharacter (m : List (String × Character)) (c : Character) :
    List (String × Character) :=
  match jsMapGet m c.name with
  | none => jsMapSet m c.name c
  | some existing =>
      jsMapSet m c.name
        { existing with aliases := (existing.aliases ++ c.aliases).foldl insertUnique [] }

/-- The accumulator threaded through the chunk loop of the legacy
`mergeAnalyses`. -/
structure MergeAcc where
  allEvents : List Event
  allCharacters : List (String × Character)
  counter : ℕ
deriving DecidableEq

/-- One iteration of the chunk loop of the legacy `mergeAnalyses`
(analyzer.ts): re-identify the chunk's events (building a local id map
that is never applied to the relations) and merge the chunk's
characters by name. -/
def mergeChunk (st : MergeAcc) (analysis : ChunkAnalysis) : MergeAcc :=
  let folded := analysis.events.foldl mergeStep ([], st.allEvents, st.counter)
  { allEvents := folded.2.1
    allCharacters := analysis.characters.foldl mergeCharacter st.allCharacters
    counter := folded.2.2 }

/-- The output of the legacy `mergeAnalyses` (analyzer.ts). -/
structure MergeResult where
  fullSummary : String
  allEvents : List Event
  allCharacters : List (String × Character)
  allRelations : List CausalRelation
deriving DecidableEq

/-- The legacy `mergeAnalyses` (analyzer.ts): events are re-identified
exactly as in the modules variant, but the causal relations are copied
unchanged (`analyses.flatMap(a => a.causalRelations)`), keeping their
chunk-local event ids. -/
def mergeAnalyses (analyses : List ChunkAnalysis) : MergeResult :=
  let acc := analyses.foldl mergeChunk ⟨[], [], 1⟩
  { fullSummary := String.intercalate "\n\n" (analyses.map (fun a => a.summary))
    allEvents := acc.allEvents
    allCharacters := acc.allCharacters
    allRelations := (analyses.map (fun a => a.causalRelations)).flatten }

end Legacy

/-! ## Structure of the merged event list -/

/-- Specification of the per-chunk event pass: each event in turn
receives the next global identifier. -/
def reassign (k : ℕ) : List Event → List Event
  | [] => []
  | e :: es => { e with id := globalEventId k } :: reassign (k + 1) es

theorem foldl_mergeStep_events :
    ∀ (evs : List Event) (m : List (String × String)) (acc : List Event) (k : ℕ),
      (evs.foldl mergeStep (m, acc, k)).2.1 = acc ++ reassign k evs ∧
        (evs.foldl mergeStep (m, acc, k)).2.2 = k + evs.length := by
  intro evs
  induction evs with
  | nil => intro m acc k; simp [reassign]
  | cons e es ih =>
    intro m acc k
    have hstep : mergeStep (m, acc, k) e =
        (jsMapSet m e.id (globalEventId k), acc ++ [{ e with id := globalEventId k }], k + 1) := rfl
    rw [List.foldl_cons, hstep]
    obtain ⟨h1, h2⟩ := ih (jsMapSet m e.id (globalEventId k))
      (acc ++ [{ e with id := globalEventId k }]) (k + 1)
    constructor
    · rw [h1, reassign]
      simp
    · rw [h2, List.length_cons]
      omega

theorem foldl_mergeStep_values :
    ∀ (evs : List Event) (m : List (String × String)) (acc : List Event) (k : ℕ)
      (x : String),
      x ∈ ((evs.foldl mergeStep (m, acc, k)).1).map (fun p => p.2) →
        x ∈ m.map (fun p => p.2) ∨ x ∈ (reassign k evs).map (fun e => e.id) := by
  intro evs
  induction evs with
  | nil => intro m acc k x h; exact Or.inl h
  | cons e es ih =>
    intro m acc k x h
    have hstep : mergeStep (m, acc, k) e =
        (jsMapSet m e.id (globalEventId k), acc ++ [{ e with id := globalEventId k }], k + 1) := rfl
    rw [List.foldl_cons, hstep] at h
    rcases ih (jsMapSet m e.id (globalEventId k))
      (acc ++ [{ e with id := globalEventId k }]) (k + 1) x h with h1 | h2
    · rcases jsMapSet_values_subset h1 with h3 | h4
      · exact Or.inl h3
      · right
        rw [reassign]
        simp [h4]
    · right
      rw [reassign]
      simp only [List.map_cons, List.mem_cons]
      exact Or.inr h2

theorem reassign_ids :
    ∀ (k : ℕ) (evs : List Event),
      (reassign k evs).map (fun e => e.id) =
        (List.range' k evs.length).map globalEventId := by
  intro k evs
  induction evs generalizing k with
  | nil => rfl
  | cons e es ih =>
    rw [reassign, List.length_cons, List.range'_succ]
    simp only [List.map_cons]
    rw [ih (k + 1)]

/-- Specification of the whole chunk loop of the modules merge:
the concatenation of the per-chunk reassigned event lists, with the
counter threaded through. -/
def reassignAll (k : ℕ) : List Modules.ChunkAnalysis → List Event
  | [] => []
  | a :: rest => reassign k a.events ++ reassignAll (k + a.events.length) rest

/-- Total number of events over all chunk analyses. -/
def totalEvents (analyses : List Modules.ChunkAnalysis) : ℕ :=
  (analyses.map (fun a => a.events.length)).sum

theorem mergeChunk_events (st : Modules.MergeAcc) (a : Modules.ChunkAnalysis) :
    (Modules.mergeChunk st a).allEvents = st.allEvents ++ reassign st.counter a.events ∧
      (Modules.mergeChunk st a).counter = st.counter + a.events.length := by
  obtain ⟨h1, h2⟩ := foldl_mergeStep_events a.events [] st.allEvents st.counter
  exact ⟨h1, h2⟩

theorem foldl_mergeChunk_events :
    ∀ (analyses : List Modules.ChunkAnalysis) (st : Modules.MergeAcc),
      (analyses.foldl Modules.mergeChunk st).allEvents =
          st.allEvents ++ reassignAll st.counter analyses ∧
        (analyses.foldl Modules.mergeChunk st).counter =
          st.counter + totalEvents analyses := by
  intro analyses
  induction analyses with
  | nil => intro st; simp [reassignAll, totalEvents]
  | cons a rest ih =>
    intro st
    rw [List.foldl_cons]
    obtain ⟨h1, h2⟩ := ih (Modules.mergeChunk st a)
    obtain ⟨e1, e2⟩ := mergeChunk_events st a
    constructor
    · rw [h1, e1, e2, reassignAll, List.append_assoc]
    · rw [h2, e2]
      simp [totalEvents]
      omega

theorem reassignAll_ids :
    ∀ (analyses : List Modules.ChunkAnalysis) (k : ℕ),
      (reassignAll k analyses).map (fun e => e.id) =
        (List.range' k (totalEvents analyses)).map globalEventId := by
  intro analyses
  induction analyses with
  | nil => intro k; rfl
  | cons a rest ih =>
    intro k
    rw [reassignAll, List.map_append, reassign_ids, ih (k + a.events.length)]
    rw [← List.map_append, List.range'_append_1]
    have htot : totalEvents (a :: rest) = a.events.length + totalEvents rest := by
      simp [totalEvents]
    rw [htot, Nat.add_comm a.events.length (totalEvents rest)]

theorem foldl_remapRelation_mem :
    ∀ (rels : List CausalRelation) (m : List (String × String))
      (racc : List CausalRelation) (r : CausalRelation),
      r ∈ rels.foldl (Modules.remapRelation m) racc →
        r ∈ racc ∨
          (r.fromEventId ∈ m.map (fun p => p.2) ∧ r.toEventId ∈ m.map (fun p => p.2)) := by
  intro rels
  induction rels with
  | nil => intro m racc r h; exact Or.inl h
  | cons rel rest ih =>
    intro m racc r h
    rcases ih m (Modules.remapRelation m racc rel) r h with h1 | h2
    · unfold Modules.remapRelation at h1
      cases hf : jsMapGet m rel.fromEventId with
      | none => rw [hf] at h1; exact Or.inl h1
      | some fg =>
        cases ht : jsMapGet m rel.toEventId with
        | none => rw [hf, ht] at h1; exact Or.inl h1
        | some tg =>
          rw [hf, ht] at h1
          rcases List.mem_append.mp h1 with h3 | h4
          · exact Or.inl h3
          · right
            have hr : r = { rel with fromEventId := fg, toEventId := tg } := by
              simpa using h4
            rw [hr]
            exact ⟨jsMapGet_mem_values hf, jsMapGet_mem_values ht⟩
    · exact Or.inr h2

/-- The invariant of claim C4: every recorded relation's endpoints name
events present in the accumulated event list. -/
def RelClosed (acc : Modules.MergeAcc) : Prop :=
  ∀ r ∈ acc.allRelations,
    r.fromEventId ∈ acc.allEvents.map (fun e => e.id) ∧
      r.toEventId ∈ acc.allEvents.map (fun e => e.id)

theorem mergeChunk_relClosed {st : Modules.MergeAcc} (h : RelClosed st)
    (a : Modules.ChunkAnalysis) : RelClosed (Modules.mergeChunk st a) := by
  intro r hr
  obtain ⟨e1, _⟩ := mergeChunk_events st a
  have hrels : (Modules.mergeChunk st a).allRelations =
      a.causalRelations.foldl
        (Modules.remapRelation (a.events.foldl mergeStep ([], st.allEvents, st.counter)).1)
        st.allRelations := rfl
  rw [hrels] at hr
  rcases foldl_remapRelation_mem a.causalRelations _ st.allRelations r hr with h1 | h2
  · obtain ⟨hf, ht⟩ := h r h1
    rw [e1, List.map_append]
    exact ⟨List.mem_append_left _ hf, List.mem_append_left _ ht⟩
  · obtain ⟨hf, ht⟩ := h2
    rw [e1, List.map_append]
    constructor
    · rcases foldl_mergeStep_values a.events [] st.allEvents st.counter _ hf with h3 | h4
      · simp at h3
      · exact List.mem_append_right _ h4
    · rcases foldl_mergeStep_values a.events [] st.allEvents st.counter _ ht with h3 | h4
      · simp at h3
      · exact List.mem_append_right _ h4

theorem foldl_mergeChunk_relClosed :
    ∀ (analyses : List Modules.ChunkAnalysis) (st : Modules.MergeAcc),
      RelClosed st → RelClosed (analyses.foldl Modules.mergeChunk st) := by
  intro analyses
  induction analyses with
  | nil => intro st h; exact h
  | cons a rest ih =>
    intro st h
    exact ih (Modules.mergeChunk st a) (mergeChunk_relClosed h a)

/-! ## Claims C2, C3, C4 -/

/-- C2: for every list of chunk analyses, `mergeAnalyses` (before
deduplication) assigns global event IDs from a single monotonically
increasing 1-based counter in zero-padded string form, in a
left-to-right pass over chunk order: the output event list's IDs are
exactly `globalEventId 1, …, globalEventId N` for `N` the total number
of input events — unique, gap-free from 1 to N, and in chunk order. -/
theorem claim_C2_merge_event_ids (analyses : List Modules.ChunkAnalysis)
    (globalCharacters : List Modules.Character) :
    (Modules.mergeAnalyses analyses globalCharacters).allEvents.map (fun e => e.id) =
        (List.range' 1 (totalEvents analyses)).map globalEventId ∧
      ((Modules.mergeAnalyses analyses globalCharacters).allEvents.map (fun e => e.id)).Nodup := by
  have hev : (Modules.mergeAnalyses analyses globalCharacters).allEvents =
      (analyses.foldl Modules.mergeChunk ⟨[], [], 1⟩).allEvents := rfl
  obtain ⟨h1, _⟩ := foldl_mergeChunk_events analyses ⟨[], [], 1⟩
  have hids : (Modules.mergeAnalyses analyses globalCharacters).allEvents.map (fun e => e.id) =
      (List.range' 1 (totalEvents analyses)).map globalEventId := by
    rw [hev, h1]
    simpa using reassignAll_ids analyses 1
  refine ⟨hids, ?_⟩
  rw [hids]
  apply List.Nodup.map_on
  · intro x hx y hy hxy
    have hx1 : 1 ≤ x := (List.mem_range'_1.mp hx).1
    have hy1 : 1 ≤ y := (List.mem_range'_1.mp hy).1
    exact globalEventId_injective hx1 hy1 hxy
  · exact List.nodup_range' _ _

/-- First chunk of the C3 example scenario: one event with local id
`E001`. -/
def c3Chunk1 : Modules.ChunkAnalysis :=
  { summary := "chunk one"
    events := [{ id := "E001", summary := "first", description := "d1", chapter := "1",
                 location := none, time := none, characters := [], emotionalTone := "calm" }]
    causalRelations := []
    characters := []
    discoveredCharacters := []
    sceneBreaks := [] }

/-- Second chunk of the C3 example scenario: one event also with local
id `E001`, and a causal relation referencing that local id. -/
def c3Chunk2 : Modules.ChunkAnalysis :=
  { summary := "chunk two"
    events := [{ id := "E001", summary := "second", description := "d2", chapter := "2",
                 location := none, time := none, characters := [], emotionalTone := "tense" }]
    causalRelations := [{ fromEventId := "E001", toEventId := "E001",
                          strength := "strong", description := "self link" }]
    characters := []
    discoveredCharacters := []
    sceneBreaks := [] }

/-- C3: `mergeAnalyses` rebuilds the local-to-global event id map
separately for each chunk: for two chunks that each emit a local event
`E001`, the global ids `E001` and `E002` are assigned in chunk order,
and a causal relation of chunk 2 referencing its own local `E001`
remaps to global `E002` (chunk 2's event), not to chunk 1's event. -/
theorem claim_C3_per_chunk_id_maps :
    (Modules.mergeAnalyses [c3Chunk1, c3Chunk2] []).allEvents.map (fun e => e.id) =
        ["E001", "E002"] ∧
      (Modules.mergeAnalyses [c3Chunk1, c3Chunk2] []).allRelations =
        [{ fromEventId := "E002", toEventId := "E002",
           strength := "strong", description := "self link" }] := by
  decide

/-- C4: after the modules merge, every causal relation in the output
has both endpoints equal to global ids of events present in the output
event list (relations with an endpoint missing from their own chunk's
local-to-global map were dropped). -/
theorem claim_C4_merge_relations_closed (analyses : List Modules.ChunkAnalysis)
    (globalCharacters : List Modules.Character) :
    ∀ r ∈ (Modules.mergeAnalyses analyses globalCharacters).allRelations,
      r.fromEventId ∈ (Modules.mergeAnalyses analyses globalCharacters).allEvents.map
          (fun e => e.id) ∧
        r.toEventId ∈ (Modules.mergeAnalyses analyses globalCharacters).allEvents.map
          (fun e => e.id) := by
  intro r hr
  have hinit : RelClosed ⟨[], [], 1⟩ := by
    intro r hr
    simp at hr
  exact foldl_mergeChunk_relClosed analyses ⟨[], [], 1⟩ hinit r hr

/-- Concrete chunk for the C4 witness: one event with local id `X1`,
one relation with both endpoints resolvable and one dangling relation
(endpoint `Y9` names no event of the chunk). -/
def c4Chunk : Modules.ChunkAnalysis :=
  { summary := "chunk"
    events := [{ id := "X1", summary := "ev", description := "d", chapter := "1",
                 location := none, time := none, characters := [], emotionalTone := "calm" }]
    causalRelations := [{ fromEventId := "X1", toEventId := "X1",
                          strength := "strong", description := "kept" },
                        { fromEventId := "X1", toEventId := "Y9",
                          strength := "weak", description := "dangling" }]
    characters := []
    discoveredCharacters := []
    sceneBreaks := [] }

/-- The relation kept by the C4 witness run. -/
def c4KeptRel : CausalRelation :=
  { fromEventId := "E001", toEventId := "E001", strength := "strong", description := "kept" }

/-- Witness for C4: on a concrete merge run the kept relation's
endpoints resolve to events of the output list. -/
theorem claim_C4_witness :
    c4KeptRel.fromEventId ∈ (Modules.mergeAnalyses [c4Chunk] []).allEvents.map
        (fun e => e.id) ∧
      c4KeptRel.toEventId ∈ (Modules.mergeAnalyses [c4Chunk] []).allEvents.map
        (fun e => e.id) :=
  claim_C4_merge_relations_closed [c4Chunk] [] c4KeptRel (by decide)

/-- Concrete chunk for the C4 counterexample against the legacy merge:
one event with local id `X1` and a relation referencing it. -/
def c4LegacyChunk : Legacy.ChunkAnalysis :=
  { summary := "chunk"
    events := [{ id := "X1", summary := "ev", description := "d", chapter := "1",
                 location := none, time := none, characters := [], emotionalTone := "calm" }]
    characters := []
    causalRelations := [{ fromEventId := "X1", toEventId := "X1",
                          strength := "strong", description := "self link" }]
    sceneBreaks := [] }

/-- Counterexample to C4 as stated: one of its cited code locations,
the legacy `mergeAnalyses` of analyzer.ts, copies relations with their
chunk-local event ids, so the output relation references `X1`, which is
not the id of any event in the output event list (`E001`). -/
theorem claim_C4_counterexample :
    (Legacy.mergeAnalyses [c4LegacyChunk]).allRelations =
        [{ fromEventId := "X1", toEventId := "X1",
           strength := "strong", description := "self link" }] ∧
      ¬ ("X1" ∈ (Legacy.mergeAnalyses [c4LegacyChunk]).allEvents.map (fun e => e.id)) := by
  decide

/-! ## The bounded worker-pool scheduler (`runInParallel`)

`runInParallel` spawns `min(concurrency, tasks.length)` workers that
pull indices from a shared cursor (`const index = currentIndex++` is
a single synchronous step in the JavaScript event loop), run the task
at that index to completion, store its result at the original index
and report progress with value `index + 1`.  The model is a small-step
transition system over the scheduler state; completion order (hence
interleaving) is nondeterministic, which also covers the progress
callbacks of `discoverGlobalContext` / `run` built on this loop.
Tasks are modelled as a pure result per index, `tasks : ℕ → α`. -/

/-- Status of one worker of the pool. -/
inductive WStatus where
  | ready
  | running (idx : ℕ)
  | done
deriving DecidableEq

/-- Scheduler state: shared cursor, the pool (a multiset of worker
statuses), the results array (partial map), the log of dispatched
indices (most recent first) and the progress log of reported
completed counts (in call order). -/
structure SchedState (α : Type) where
  cursor : ℕ
  workers : Multiset WStatus
  results : ℕ → Option α
  dispatched : List ℕ
  plog : List ℕ

/-- One scheduler transition: a ready worker claims the cursor index
(and bumps the cursor atomically), a ready worker retires when the
cursor has passed the end, or a running worker completes its task,
reporting progress `idx + 1` and writing the result at its index. -/
inductive SchedStep (tasks : ℕ → α) (n : ℕ) : SchedState α → SchedState α → Prop
  | claim (cursor : ℕ) (rest : Multiset WStatus) (res : ℕ → Option α)
      (disp plog : List ℕ) (h : cursor < n) :
      SchedStep tasks n
        ⟨cursor, WStatus.ready ::ₘ rest, res, disp, plog⟩
        ⟨cursor + 1, WStatus.running cursor ::ₘ rest, res, cursor :: disp, plog⟩
  | finish (cursor : ℕ) (rest : Multiset WStatus) (res : ℕ → Option α)
      (disp plog : List ℕ) (h : n ≤ cursor) :
      SchedStep tasks n
        ⟨cursor, WStatus.ready ::ₘ rest, res, disp, plog⟩
        ⟨cursor, WStatus.done ::ₘ rest, res, disp, plog⟩
  | write (cursor i : ℕ) (rest : Multiset WStatus) (res : ℕ → Option α)
      (disp plog : List ℕ) :
      SchedStep tasks n
        ⟨cursor, WStatus.running i ::ₘ rest, res, disp, plog⟩
        ⟨cursor, WStatus.ready ::ₘ rest,
          fun j => if j = i then some (tasks i) else res j, disp, plog ++ [i + 1]⟩

/-- Executions of the scheduler. -/
def Reachable (tasks : ℕ → α) (n : ℕ) : SchedState α → SchedState α → Prop :=
  Relation.ReflTransGen (SchedStep tasks n)

/-- The initial scheduler state for `n` tasks and concurrency `c`. -/
def initState (α : Type) (c n : ℕ) : SchedState α :=
  ⟨0, Multiset.replicate (min c n) WStatus.ready, fun _ => none, [], []⟩

/-- A state in which `Promise.all` has resolved: every worker retired. -/
def Terminal (s : SchedState α) : Prop :=
  ∀ w ∈ s.workers, w = WStatus.done

/-- The inductive invariant of the scheduler. -/
structure SchedInv (tasks : ℕ → α) (n k : ℕ) (s : SchedState α) : Prop where
  cursor_le : s.cursor ≤ n
  card_workers : Multiset.card s.workers = k
  disp : s.dispatched = (List.range s.cursor).reverse
  res_hi : ∀ i, s.cursor ≤ i → s.results i = none
  res_lo : ∀ i, i < s.cursor → s.results i = some (tasks i) ∨ WStatus.running i ∈ s.workers
  run_lt : ∀ i, WStatus.running i ∈ s.workers → i < s.cursor ∧ s.results i = none
  done_cursor : WStatus.done ∈ s.workers → s.cursor = n
  run_count : ∀ i, s.workers.count (WStatus.running i) ≤ 1
  log_perm : s.plog.Perm
    (((List.range s.cursor).filter (fun i => (s.results i).isSome)).map (fun i => i + 1))

theorem filter_update_perm {α : Type} (v : α) :
    ∀ (l : List ℕ), l.Nodup → ∀ (i : ℕ), i ∈ l → ∀ (res : ℕ → Option α), res i = none →
      (l.filter (fun j => (if j = i then some v else res j).isSome)).Perm
        (i :: l.filter (fun j => (res j).isSome)) := by
  intro l
  induction l with
  | nil => intro _ i hi; cases hi
  | cons a t ih =>
    intro hl i hi res hres
    rcases List.mem_cons.mp hi with rfl | hmem
    · have hnotin : i ∉ t := (List.nodup_cons.mp hl).1
      have hfilt : t.filter (fun j => (if j = i then some v else res j).isSome) =
          t.filter (fun j => (res j).isSome) := by
        apply List.filter_congr
        intro j hj
        have hji : j ≠ i := fun hcontr => hnotin (hcontr ▸ hj)
        simp [hji]
      rw [List.filter_cons_of_pos (by simp), List.filter_cons_of_neg (by simp [hres]), hfilt]
    · have hai : a ≠ i := by
        intro hcontr
        subst hcontr
        exact (List.nodup_cons.mp hl).1 hmem
      have ihx := ih (List.nodup_cons.mp hl).2 i hmem res hres
      by_cases hpa : (res a).isSome
      · rw [List.filter_cons_of_pos (by simpa [hai] using hpa),
          List.filter_cons_of_pos (by simpa using hpa)]
        exact (ihx.cons a).trans (List.Perm.swap i a _)
      · rw [List.filter_cons_of_neg (by simpa [hai] using hpa),
          List.filter_cons_of_neg (by simpa using hpa)]
        exact ihx

theorem schedStep_inv {α : Type} {tasks : ℕ → α} {n k : ℕ} {s t : SchedState α}
    (hstep : SchedStep tasks n s t) (hinv : SchedInv tasks n k s) : SchedInv tasks n k t := by
  cases hstep with
  | claim cursor rest res disp plog h =>
    obtain ⟨h1, h2, h3, h4, h5, h6, h7, h8, h9⟩ := hinv
    dsimp only at h1 h2 h3 h4 h5 h6 h7 h8 h9
    refine ⟨?_, ?_, ?_, ?_, ?_, ?_, ?_, ?_, ?_⟩ <;> dsimp only
    · omega
    · simpa using h2
    · rw [h3, List.range_succ]
      simp
    · intro i hi
      exact h4 i (by omega)
    · intro i hi
      rcases Nat.lt_succ_iff_lt_or_eq.mp hi with hlt | heq
      · rcases h5 i hlt with hres | hrun
        · exact Or.inl hres
        · right
          rcases Multiset.mem_cons.mp hrun with habs | hmem
          · cases habs
          · exact Multiset.mem_cons_of_mem hmem
      · subst heq
        exact Or.inr (Multiset.mem_cons_self _ _)
    · intro i hrun
      rcases Multiset.mem_cons.mp hrun with heq | hmem
      · cases heq
        exact ⟨by omega, h4 cursor le_rfl⟩
      · have := h6 i (Multiset.mem_cons_of_mem hmem)
        exact ⟨by omega, this.2⟩
    · intro hdone
      rcases Multiset.mem_cons.mp hdone with habs | hmem
      · cases habs
      · have := h7 (Multiset.mem_cons_of_mem hmem)
        omega
    · intro i
      rw [Multiset.count_cons]
      by_cases hic : WStatus.running i = WStatus.running cursor
      · have hieq : i = cursor := by
          injection hic
        subst hieq
        have hnot : WStatus.running i ∉ rest := by
          intro hmem
          have := h6 i (Multiset.mem_cons_of_mem hmem)
          omega
        rw [Multiset.count_eq_zero_of_not_mem hnot]
        simp
      · have := h8 i
        rw [Multiset.count_cons] at this
        simp only [hic, if_neg, ite_false] at this ⊢
        simpa using this
    · rw [List.range_succ, List.filter_append]
      have hempty : (List.filter (fun i => (res i).isSome) [cursor]) = [] := by
        simp [h4 cursor le_rfl]
      rw [hempty, List.append_nil]
      exact h9
  | finish cursor rest res disp plog h =>
    obtain ⟨h1, h2, h3, h4, h5, h6, h7, h8, h9⟩ := hinv
    dsimp only at h1 h2 h3 h4 h5 h6 h7 h8 h9
    refine ⟨?_, ?_, ?_, ?_, ?_, ?_, ?_, ?_, ?_⟩ <;> dsimp only
    · exact h1
    · simpa using h2
    · exact h3
    · exact h4
    · intro i hi
      rcases h5 i hi with hres | hrun
      · exact Or.inl hres
      · right
        rcases Multiset.mem_cons.mp hrun with habs | hmem
        · cases habs
        · exact Multiset.mem_cons_of_mem hmem
    · intro i hrun
      rcases Multiset.mem_cons.mp hrun with habs | hmem
      · cases habs
      · exact h6 i (Multiset.mem_cons_of_mem hmem)
    · intro _
      omega
    · intro i
      have := h8 i
      rw [Multiset.count_cons] at this ⊢
      simp only [reduceCtorEq, ite_false] at this ⊢
      omega
    · exact h9
  | write cursor i rest res disp plog =>
    obtain ⟨h1, h2, h3, h4, h5, h6, h7, h8, h9⟩ := hinv
    dsimp only at h1 h2 h3 h4 h5 h6 h7 h8 h9
    obtain ⟨hilt, hires⟩ := h6 i (Multiset.mem_cons_self _ _)
    have hinotrest : WStatus.running i ∉ rest := by
      intro hmem
      have hcnt := h8 i
      rw [Multiset.count_cons, if_pos rfl] at hcnt
      have := Multiset.count_pos.mpr hmem
      omega
    refine ⟨?_, ?_, ?_, ?_, ?_, ?_, ?_, ?_, ?_⟩ <;> dsimp only
    · exact h1
    · simpa using h2
    · exact h3
    · intro j hj
      have hji : j ≠ i := by omega
      simp only [hji, if_neg, ite_false]
      exact h4 j hj
    · intro j hj
      by_cases hji : j = i
      · subst hji
        left
        simp
      · simp only [hji, if_neg, ite_false]
        rcases h5 j hj with hres | hrun
        · exact Or.inl hres
        · right
          rcases Multiset.mem_cons.mp hrun with heq | hmem
          · cases heq
            exact absurd rfl hji
          · exact Multiset.mem_cons_of_mem hmem
    · intro j hrun
      rcases Multiset.mem_cons.mp hrun with habs | hmem
      · cases habs
      · have hji : j ≠ i := by
          intro hcontr
          subst hcontr
          exact hinotrest hmem
        have := h6 j (Multiset.mem_cons_of_mem hmem)
        refine ⟨this.1, ?_⟩
        simp only [hji, if_neg, ite_false]
        exact this.2
    · intro hdone
      rcases Multiset.mem_cons.mp hdone with habs | hmem
      · cases habs
      · exact h7 (Multiset.mem_cons_of_mem hmem)
    · intro j
      have := h8 j
      rw [Multiset.count_cons] at this ⊢
      simp only [reduceCtorEq, ite_false]
      by_cases hj : WStatus.running j = WStatus.running i
      · rw [if_pos hj] at this
        omega
      · rw [if_neg hj] at this
        omega
    · have hperm := filter_update_perm (tasks i) (List.range cursor) (List.nodup_range cursor)
        i (List.mem_range.mpr hilt) res hires
      have s1 : (plog ++ [i + 1]).Perm
          (((List.range cursor).filter (fun j => (res j).isSome)).map (fun j => j + 1)
            ++ [i + 1]) := h9.append_right _
      have s2 : (((List.range cursor).filter (fun j => (res j).isSome)).map (fun j => j + 1)
            ++ [i + 1]).Perm
          ((i + 1) ::
            ((List.range cursor).filter (fun j => (res j).isSome)).map (fun j => j + 1)) :=
        List.perm_append_singleton _ _
      have s3 : ((i + 1) ::
            ((List.range cursor).filter (fun j => (res j).isSome)).map (fun j => j + 1)) =
          ((i :: (List.range cursor).filter (fun j => (res j).isSome)).map
            (fun j => j + 1)) := rfl
      have s4 : ((i :: (List.range cursor).filter (fun j => (res j).isSome)).map
            (fun j => j + 1)).Perm
          (((List.range cursor).filter
              (fun j => (if j = i then some (tasks i) else res j).isSome)).map
            (fun j => j + 1)) := (hperm.map _).symm
      exact ((s1.trans s2).trans (s3 ▸ List.Perm.refl _)).trans s4

theorem reachable_inv {α : Type} {tasks : ℕ → α} {n k : ℕ} {s t : SchedState α}
    (h : Reachable tasks n s t) (hs : SchedInv tasks n k s) : SchedInv tasks n k t := by
  induction h with
  | refl => exact hs
  | tail _ hstep ih => exact schedStep_inv hstep ih

theorem initState_inv (α : Type) (tasks : ℕ → α) (n c : ℕ) :
    SchedInv tasks n (min c n) (initState α c n) := by
  refine ⟨?_, ?_, ?_, ?_, ?_, ?_, ?_, ?_, ?_⟩ <;> dsimp only [initState]
  · exact Nat.zero_le n
  · simp
  · rfl
  · intro i _
    rfl
  · intro i hi
    omega
  · intro i hrun
    have := Multiset.eq_of_mem_replicate hrun
    cases this
  · intro hdone
    have := Multiset.eq_of_mem_replicate hdone
    cases this
  · intro i
    rw [Multiset.count_replicate]
    simp
  · simp

/-- C1: for every task list of length `n ≥ 1` and every concurrency
setting `c` with `1 ≤ c` (in particular every `c` from 1 to `n`), every
complete run of `runInParallel` ends with slot `i` holding the result
of task `i` for every `i < n` (input order, regardless of completion
order), no slot beyond the task list written, and the dispatch log
equal to the indices `0, …, n-1` each claimed exactly once, in cursor
order — no task dispatched twice and no index skipped. -/
theorem claim_C1_scheduler_order (α : Type) (tasks : ℕ → α) (n c : ℕ)
    (hc : 1 ≤ c) (hn : 1 ≤ n) (s : SchedState α)
    (hreach : Reachable tasks n (initState α c n) s) (hterm : Terminal s) :
    (∀ i, i < n → s.results i = some (tasks i)) ∧
      (∀ i, n ≤ i → s.results i = none) ∧
      s.dispatched = (List.range n).reverse := by
  obtain ⟨h1, h2, h3, h4, h5, h6, h7, h8, h9⟩ := reachable_inv hreach (initState_inv α tasks n c)
  have hk : 1 ≤ min c n := le_min hc hn
  have hcard : Multiset.card s.workers ≠ 0 := by omega
  have hne : s.workers ≠ 0 := fun h0 => hcard (by rw [h0]; rfl)
  obtain ⟨w, hw⟩ := Multiset.exists_mem_of_ne_zero hne
  have hwdone : w = WStatus.done := hterm w hw
  have hcur : s.cursor = n := h7 (hwdone ▸ hw)
  have hnorun : ∀ i, WStatus.running i ∉ s.workers := by
    intro i hmem
    cases hterm _ hmem
  refine ⟨?_, ?_, ?_⟩
  · intro i hi
    rcases h5 i (by omega) with hres | hrun
    · exact hres
    · exact absurd hrun (hnorun i)
  · intro i hi
    exact h4 i (by omega)
  · rw [h3, hcur]

/-- The terminal state of a concrete complete run of the scheduler on
two tasks with concurrency 1. -/
def c1FinalState : SchedState ℕ :=
  ⟨2, WStatus.done ::ₘ 0,
    fun j => if j = 1 then some 1 else if j = 0 then some 0 else none, [1, 0], [1, 2]⟩

theorem c1_chain : Reachable (fun i : ℕ => i) 2 (initState ℕ 1 2) c1FinalState := by
  refine Relation.ReflTransGen.head
    (SchedStep.claim 0 0 (fun _ => none) [] [] (by omega)) ?_
  refine Relation.ReflTransGen.head
    (SchedStep.write 1 0 0 (fun _ => none) [0] []) ?_
  refine Relation.ReflTransGen.head
    (SchedStep.claim 1 0 (fun j => if j = 0 then some 0 else none) [0] [1] (by omega)) ?_
  refine Relation.ReflTransGen.head
    (SchedStep.write 2 1 0 (fun j => if j = 0 then some 0 else none) [1, 0] [1]) ?_
  exact Relation.ReflTransGen.head
    (SchedStep.finish 2 0
      (fun j => if j = 1 then some 1 else if j = 0 then some 0 else none) [1, 0] [1, 2]
      (by omega))
    Relation.ReflTransGen.refl

/-- Witness for C1: the concrete run behind `c1_chain` ends with both
results in input order and the dispatch log `[1, 0]` (= reverse of
`range 2`). -/
theorem claim_C1_witness :
    c1FinalState.results 0 = some 0 ∧ c1FinalState.results 1 = some 1 ∧
      c1FinalState.results 2 = none ∧
      c1FinalState.dispatched = (List.range 2).reverse := by
  obtain ⟨h1, h2, h3⟩ :=
    claim_C1_scheduler_order ℕ (fun i => i) 2 1 (by omega) (by omega) c1FinalState c1_chain
      (by
        intro w hw
        have hw2 : w ∈ WStatus.done ::ₘ (0 : Multiset WStatus) := hw
        rcases Multiset.mem_cons.mp hw2 with h | h
        · exact h
        · simp at h)
  exact ⟨h1 0 (by omega), h1 1 (by omega), h2 2 (by omega), h3⟩

/-- C9 (amended): on every complete run of a `runInParallel`-based
stage, the progress callback is invoked exactly once per completed unit
of work: the reported completed counts form a permutation of
`1, …, n`.  (Monotonicity fails; see the counterexample.) -/
theorem claim_C9_progress_counts (α : Type) (tasks : ℕ → α) (n c : ℕ)
    (hc : 1 ≤ c) (hn : 1 ≤ n) (s : SchedState α)
    (hreach : Reachable tasks n (initState α c n) s) (hterm : Terminal s) :
    s.plog.Perm ((List.range n).map (fun i => i + 1)) := by
  obtain ⟨h1, h2, h3, h4, h5, h6, h7, h8, h9⟩ := reachable_inv hreach (initState_inv α tasks n c)
  have hk : 1 ≤ min c n := le_min hc hn
  have hcard : Multiset.card s.workers ≠ 0 := by omega
  have hne : s.workers ≠ 0 := fun h0 => hcard (by rw [h0]; rfl)
  obtain ⟨w, hw⟩ := Multiset.exists_mem_of_ne_zero hne
  have hwdone : w = WStatus.done := hterm w hw
  have hcur : s.cursor = n := h7 (hwdone ▸ hw)
  have hnorun : ∀ i, WStatus.running i ∉ s.workers := by
    intro i hmem
    cases hterm _ hmem
  have hfull : (List.range s.cursor).filter (fun i => (s.results i).isSome) =
      List.range s.cursor := by
    apply List.filter_eq_self.mpr
    intro a ha
    have halt : a < s.cursor := List.mem_range.mp ha
    rcases h5 a halt with hres | hrun
    · simp [hres]
    · exact absurd hrun (hnorun a)
  rw [hfull, hcur] at h9
  exact h9

/-- The terminal state of a concrete complete run of the scheduler on
two tasks with concurrency 2, in which task 1 completes before
task 0: the progress log is `[2, 1]`. -/
def c9FinalState : SchedState ℕ :=
  ⟨2, WStatus.done ::ₘ WStatus.done ::ₘ 0,
    fun j => if j = 0 then some 0 else if j = 1 then some 1 else none, [1, 0], [2, 1]⟩

theorem c9_chain : Reachable (fun i : ℕ => i) 2 (initState ℕ 2 2) c9FinalState := by
  have h1 : SchedStep (fun i : ℕ => i) 2 (initState ℕ 2 2)
      ⟨1, WStatus.ready ::ₘ WStatus.running 0 ::ₘ 0, fun _ => none, [0], []⟩ := by
    have h : SchedStep (fun i : ℕ => i) 2
        ⟨0, WStatus.ready ::ₘ WStatus.ready ::ₘ 0, fun _ => none, [], []⟩
        ⟨1, WStatus.running 0 ::ₘ WStatus.ready ::ₘ 0, fun _ => none, [0], []⟩ :=
      SchedStep.claim 0 (WStatus.ready ::ₘ 0) (fun _ => none) [] [] (by omega)
    rwa [Multiset.cons_swap (WStatus.running 0) WStatus.ready 0] at h
  have h2 : SchedStep (fun i : ℕ => i) 2
      ⟨1, WStatus.ready ::ₘ WStatus.running 0 ::ₘ 0, fun _ => none, [0], []⟩
      ⟨2, WStatus.running 1 ::ₘ WStatus.running 0 ::ₘ 0, fun _ => none, [1, 0], []⟩ :=
    SchedStep.claim 1 (WStatus.running 0 ::ₘ 0) (fun _ => none) [0] [] (by omega)
  have h3 : SchedStep (fun i : ℕ => i) 2
      ⟨2, WStatus.running 1 ::ₘ WStatus.running 0 ::ₘ 0, fun _ => none, [1, 0], []⟩
      ⟨2, WStatus.ready ::ₘ WStatus.running 0 ::ₘ 0,
        fun j => if j = 1 then some 1 else none, [1, 0], [2]⟩ :=
    SchedStep.write 2 1 (WStatus.running 0 ::ₘ 0) (fun _ => none) [1, 0] []
  have h4 : SchedStep (fun i : ℕ => i) 2
      ⟨2, WStatus.ready ::ₘ WStatus.running 0 ::ₘ 0,
        fun j => if j = 1 then some 1 else none, [1, 0], [2]⟩
      ⟨2, WStatus.ready ::ₘ WStatus.ready ::ₘ 0,
        fun j => if j = 0 then some 0 else if j = 1 then some 1 else none, [1, 0], [2, 1]⟩ := by
    have h : SchedStep (fun i : ℕ => i) 2
        ⟨2, WStatus.running 0 ::ₘ WStatus.ready ::ₘ 0,
          fun j => if j = 1 then some 1 else none, [1, 0], [2]⟩
        ⟨2, WStatus.ready ::ₘ WStatus.ready ::ₘ 0,
          fun j => if j = 0 then some 0 else if j = 1 then some 1 else none, [1, 0], [2, 1]⟩ :=
      SchedStep.write 2 0 (WStatus.ready ::ₘ 0)
        (fun j => if j = 1 then some 1 else none) [1, 0] [2]
    rwa [Multiset.cons_swap (WStatus.running 0) WStatus.ready 0] at h
  have h5 : SchedStep (fun i : ℕ => i) 2
      ⟨2, WStatus.ready ::ₘ WStatus.ready ::ₘ 0,
        fun j => if j = 0 then some 0 else if j = 1 then some 1 else none, [1, 0], [2, 1]⟩
      ⟨2, WStatus.done ::ₘ WStatus.ready ::ₘ 0,
        fun j => if j = 0 then some 0 else if j = 1 then some 1 else none, [1, 0], [2, 1]⟩ :=
    SchedStep.finish 2 (WStatus.ready ::ₘ 0)
      (fun j => if j = 0 then some 0 else if j = 1 then some 1 else none) [1, 0] [2, 1]
      (by omega)
  have h6 : SchedStep (fun i : ℕ => i) 2
      ⟨2, WStatus.done ::ₘ WStatus.ready ::ₘ 0,
        fun j => if j = 0 then some 0 else if j = 1 then some 1 else none, [1, 0], [2, 1]⟩
      c9FinalState := by
    have h : SchedStep (fun i : ℕ => i) 2
        ⟨2, WStatus.ready ::ₘ WStatus.done ::ₘ 0,
          fun j => if j = 0 then some 0 else if j = 1 then some 1 else none, [1, 0], [2, 1]⟩
        ⟨2, WStatus.done ::ₘ WStatus.done ::ₘ 0,
          fun j => if j = 0 then some 0 else if j = 1 then some 1 else none, [1, 0], [2, 1]⟩ :=
      SchedStep.finish 2 (WStatus.done ::ₘ 0)
        (fun j => if j = 0 then some 0 else if j = 1 then some 1 else none) [1, 0] [2, 1]
        (by omega)
    rwa [Multiset.cons_swap WStatus.ready WStatus.done 0] at h
  exact Relation.ReflTransGen.head h1
    (Relation.ReflTransGen.head h2
      (Relation.ReflTransGen.head h3
        (Relation.ReflTransGen.head h4
          (Relation.ReflTransGen.head h5
            (Relation.ReflTransGen.head h6 Relation.ReflTransGen.refl)))))

/-- Counterexample to C9 as stated: a complete run of the scheduler on
two tasks with concurrency 2 in which task 1 completes first reports
the completed counts `[2, 1]` — not a monotonically non-decreasing
sequence. -/
theorem claim_C9_counterexample :
    Reachable (fun i : ℕ => i) 2 (initState ℕ 2 2) c9FinalState ∧
      Terminal c9FinalState ∧
      c9FinalState.plog = [2, 1] ∧
      ¬ List.Sorted (· ≤ ·) c9FinalState.plog := by
  refine ⟨c9_chain, ?_, rfl, ?_⟩
  · intro w hw
    have hw2 : w ∈ WStatus.done ::ₘ WStatus.done ::ₘ (0 : Multiset WStatus) := hw
    rcases Multiset.mem_cons.mp hw2 with h | h
    · exact h
    · simpa using h
  · intro hsorted
    have hs : List.Sorted (· ≤ ·) [2, 1] := hsorted
    have := List.rel_of_sorted_cons hs 1 (by simp)
    omega

/-- Witness for the amended C9: on the concrete run behind `c9_chain`
the progress log `[2, 1]` is a permutation of `[1, 2]`. -/
theorem claim_C9_witness :
    c9FinalState.plog.Perm ((List.range 2).map (fun i => i + 1)) :=
  claim_C9_progress_counts ℕ (fun i => i) 2 2 (by omega) (by omega) c9FinalState c9_chain
    (by
      intro w hw
      have hw2 : w ∈ WStatus.done ::ₘ WStatus.done ::ₘ (0 : Multiset WStatus) := hw
      rcases Multiset.mem_cons.mp hw2 with h | h
      · exact h
      · simpa using h)

/-! ## Entity aggregation and resolution (`resolveEntities`)

The generation capability is an opaque function from the aggregated
name→descriptions payload to a canonical character list; the model
returns, alongside the result, the list of payloads submitted to it so
that call counts and prompt contents are observable. -/

/-- One step of the aggregation loop of `resolveEntities`: ensure a
bucket exists for the mention's name and add the description to that
bucket (a JavaScript `Set`, so duplicates are dropped). -/
def addMention (m : List (String × List String)) (x : Mention) :
    List (String × List String) :=
  match jsMapGet m x.name with
  | some ds => jsMapSet m x.name (insertUnique ds x.description)
  | none => jsMapSet m x.name (insertUnique [] x.description)

/-- The aggregated inputs of `resolveEntities`: buckets of distinct
descriptions grouped by literal name equality, each truncated to its
first 5 entries (`Array.from(descSet).slice(0, 5)`). -/
def aggregateMentions (raw : List Mention) : List (String × List String) :=
  (raw.foldl addMention []).map (fun p => (p.1, p.2.take 5))

/-- `resolveEntities`: empty input short-circuits to no entities and no
generation call; otherwise a single structured generation call is made
on the aggregated buckets.  The second component records the payloads
submitted to the generation capability. -/
def resolveEntities (llm : List (String × List String) → List Modules.Character)
    (rawDiscovered : List Mention) :
    List Modules.Character × List (List (String × List String)) :=
  if rawDiscovered.length = 0 then ([], [])
  else (llm (aggregateMentions rawDiscovered), [aggregateMentions rawDiscovered])

theorem jsMapSet_mem {α : Type} {m : List (String × α)} {k : String} {v : α}
    {p : String × α} (h : p ∈ jsMapSet m k v) : p = (k, v) ∨ p ∈ m := by
  unfold jsMapSet at h
  split at h
  · obtain ⟨q, hq, hpq⟩ := List.mem_map.mp h
    by_cases hk : q.1 = k
    · left
      rw [← hpq]
      simp [hk]
    · right
      rw [← hpq]
      simp only [hk, if_neg, ite_false]
      exact hq
  · rcases List.mem_append.mp h with h1 | h2
    · exact Or.inr h1
    · left
      simpa using h2

/-- The invariant of the aggregation fold: every bucket holds distinct
descriptions, each of which occurred in the source mention list under
exactly that bucket's name. -/
def BucketsOk (raw : List Mention) (m : List (String × List String)) : Prop :=
  ∀ p ∈ m, p.2.Nodup ∧ ∀ d ∈ p.2, (⟨p.1, d⟩ : Mention) ∈ raw

theorem addMention_bucketsOk {raw : List Mention} {m : List (String × List String)}
    (hm : BucketsOk raw m) {x : Mention} (hx : x ∈ raw) :
    BucketsOk raw (addMention m x) := by
  intro p hp
  unfold addMention at hp
  cases hget : jsMapGet m x.name with
  | some ds =>
    rw [hget] at hp
    rcases jsMapSet_mem hp with heq | hmem
    · obtain ⟨q, hq, hq1, hq2⟩ := mem_of_jsMapGet hget
      obtain ⟨hnd, hsub⟩ := hm q hq
      subst heq
      constructor
      · exact insertUnique_nodup (hq2 ▸ hnd) _
      · intro d hd
        rcases mem_insertUnique hd with hds | hdx
        · have := hsub d (hq2 ▸ hds)
          rwa [hq1] at this
        · subst hdx
          simpa using hx
    · exact hm p hmem
  | none =>
    rw [hget] at hp
    rcases jsMapSet_mem hp with heq | hmem
    · subst heq
      refine ⟨?_, ?_⟩
      · simp [insertUnique]
      · intro d hd
        simp only [insertUnique] at hd
        simp at hd
        subst hd
        simpa using hx
    · exact hm p hmem

theorem foldl_addMention_bucketsOk {raw : List Mention} :
    ∀ (l : List Mention) (m : List (String × List String)),
      (∀ x ∈ l, x ∈ raw) → BucketsOk raw m → BucketsOk raw (l.foldl addMention m) := by
  intro l
  induction l with
  | nil => intro m _ hm; exact hm
  | cons x xs ih =>
    intro m hl hm
    rw [List.foldl_cons]
    exact ih (addMention m x) (fun y hy => hl y (List.mem_cons_of_mem x hy))
      (addMention_bucketsOk hm (hl x (List.mem_cons_self x xs)))

/-- C8: entity aggregation groups raw mentions into buckets by literal
name equality, deduplicates the descriptions within a bucket, and
submits to the generation capability exactly one payload in which every
bucket holds at most 5 distinct descriptions, each actually seen in the
raw mention list under that bucket's name — not all descriptions ever
seen. -/
theorem claim_C8_aggregation (llm : List (String × List String) → List Modules.Character)
    (raw : List Mention) (hraw : raw ≠ []) :
    (resolveEntities llm raw).2 = [aggregateMentions raw] ∧
      ∀ p ∈ aggregateMentions raw,
        p.2.length ≤ 5 ∧ p.2.Nodup ∧ ∀ d ∈ p.2, (⟨p.1, d⟩ : Mention) ∈ raw := by
  constructor
  · unfold resolveEntities
    rw [if_neg]
    simpa using hraw
  · intro p hp
    obtain ⟨q, hq, hpq⟩ := List.mem_map.mp hp
    have hP := foldl_addMention_bucketsOk raw [] (fun x hx => hx) (by intro p hp; cases hp)
    obtain ⟨hnd, hmem⟩ := hP q hq
    subst hpq
    refine ⟨?_, ?_, ?_⟩
    · exact List.length_take_le 5 q.2
    · exact List.Nodup.sublist (List.take_sublist 5 q.2) hnd
    · intro d hd
      exact hmem d (List.take_subset 5 q.2 hd)

/-- Concrete raw mentions for the C8 witness: a prolific name with six
distinct descriptions (one repeated) and a second name. -/
def c8Raw : List Mention :=
  [⟨"a", "d1"⟩, ⟨"a", "d2"⟩, ⟨"a", "d3"⟩, ⟨"a", "d4"⟩, ⟨"a", "d5"⟩, ⟨"a", "d6"⟩,
   ⟨"a", "d1"⟩, ⟨"b", "e"⟩]

/-- Witness for C8: the aggregation guarantees on a concrete mention
list, instantiated at the bucket of the prolific name `a` (six distinct
descriptions seen, five kept) and its first description. -/
theorem claim_C8_witness :
    (resolveEntities (fun _ => []) c8Raw).2 = [aggregateMentions c8Raw] ∧
      (["d1", "d2", "d3", "d4", "d5"] : List String).length ≤ 5 ∧
      (["d1", "d2", "d3", "d4", "d5"] : List String).Nodup ∧
      (⟨"a", "d1"⟩ : Mention) ∈ c8Raw := by
  obtain ⟨h1, h2⟩ := claim_C8_aggregation (fun _ => []) c8Raw (by decide)
  obtain ⟨g1, g2, g3⟩ := h2 ("a", ["d1", "d2", "d3", "d4", "d5"]) (by decide)
  exact ⟨h1, g1, g2, g3 "d1" (by decide)⟩

/-- C10: `resolveEntities` applied to an empty discovered-mention list
returns an empty entity list and submits no payload to the generation
capability. -/
theorem claim_C10_empty_resolution
    (llm : List (String × List String) → List Modules.Character) :
    resolveEntities llm [] = ([], []) := rfl

/-! ## The token chunker (libs/chunker.ts)

Text is modelled as its list of code units (`List Char`).  The
tokenizer (`js-tiktoken`, an external dependency) is abstracted as an
encode/decode pair over an abstract token type; `charEncoder` is the
character-level instance used for concrete runs. -/

/-- An abstract tokenizer interface. -/
structure Encoder (τ : Type) where
  enc : List Char → List τ
  dec : List τ → List Char

/-- `countTokens(text)`: the length of the encoding. -/
def cntTok {τ : Type} (e : Encoder τ) (s : List Char) : ℕ := (e.enc s).length

/-- The character-level tokenizer instance: one token per code unit. -/
def charEncoder : Encoder Char := ⟨id, id⟩

/-- A produced text chunk (TextChunk of libs/types.ts). -/
structure TextChunk where
  index : ℕ
  content : List Char
  tokenCount : ℕ
  startChar : ℕ
  endChar : ℕ
deriving DecidableEq

/-- JavaScript whitespace, restricted to the code points relevant
here (space, newline, tab, carriage return). -/
def isJsWs (c : Char) : Bool :=
  c == ' ' || c == '\n' || c == '\t' || c == '\r'

/-- JavaScript `s.trim()`. -/
def jsTrim (l : List Char) : List Char :=
  ((l.dropWhile isJsWs).reverse.dropWhile isJsWs).reverse

/-- `text.replace(/\r\n/g, "\n")`: a carriage return immediately
followed by a newline is dropped (the newline itself is kept). -/
def normalizeNewlines : List Char → List Char
  | [] => []
  | c :: rest =>
    if c = '\r' ∧ rest.head? = some '\n' then normalizeNewlines rest
    else c :: normalizeNewlines rest

/-- Splitting on `/\n\n+/`: segments separated by runs of two or more
newlines.  `acc` is the current segment (reversed), `pend` the number
of pending newlines not yet classified. -/
def splitParasAux : List Char → List Char → ℕ → List (List Char)
  | [], acc, pend =>
    if 2 ≤ pend then [acc.reverse, []]
    else if pend = 1 then [('\n' :: acc).reverse]
    else [acc.reverse]
  | c :: rest, acc, pend =>
    if c = '\n' then splitParasAux rest acc (pend + 1)
    else if 2 ≤ pend then acc.reverse :: splitParasAux rest [c] 0
    else if pend = 1 then splitParasAux rest (c :: '\n' :: acc) 0
    else splitParasAux rest (c :: acc) 0

/-- `normalizedText.split(/\n\n+/)`. -/
def splitParas (l : List Char) : List (List Char) :=
  splitParasAux l [] 0

/-- Sentence-ending delimiters of `/([。！？；]|\n)/`. -/
def isSentenceDelim (c : Char) : Bool :=
  c == '。' || c == '！' || c == '？' || c == '；' || c == '\n'

/-- `para.split(/([。！？；]|\n)/g)` re-glued into the delimiter-keeping
units the loop consumes (`sentences[i] + (sentences[i+1] || "")`): each
maximal delimiter-free run together with its trailing delimiter, plus a
final (possibly empty) remainder. -/
def splitSentencesAux : List Char → List Char → List (List Char)
  | acc, [] => [acc.reverse]
  | acc, c :: rest =>
    if isSentenceDelim c then (c :: acc).reverse :: splitSentencesAux [] rest
    else splitSentencesAux (c :: acc) rest

/-- The sentence units of one over-long paragraph. -/
def splitSentences (l : List Char) : List (List Char) :=
  splitSentencesAux [] l

/-- `getOverlapText`: decode the last `overlapTokens` encoded tokens;
if the text is at most `overlapTokens` tokens, return it whole.  (For
`overlapTokens = 0` on nonempty text, JavaScript `slice(-0)` returns
the whole token array — modelled faithfully.) -/
def getOverlapText {τ : Type} (e : Encoder τ) (ov : ℕ) (text : List Char) : List Char :=
  if (e.enc text).length ≤ ov then text
  else if ov = 0 then e.dec (e.enc text)
  else e.dec ((e.enc text).drop ((e.enc text).length - ov))

/-- The mutable locals of `TokenChunker.chunk`. -/
structure ChunkState where
  chunks : List TextChunk
  currentContent : List Char
  currentTokens : ℕ
  startChar : ℕ
  charOffset : ℕ
deriving DecidableEq

/-- `flushChunk`: if the buffer trims to something nonempty, emit it as
a chunk and seed the next buffer with the overlap text; otherwise do
nothing. -/
def flushChunk {τ : Type} (e : Encoder τ) (ov : ℕ) (st : ChunkState) : ChunkState :=
  if jsTrim st.currentContent = [] then st
  else
    { chunks := st.chunks ++
        [{ index := st.chunks.length, content := jsTrim st.currentContent,
           tokenCount := st.currentTokens, startChar := st.startChar,
           endChar := st.charOffset }]
      currentContent := getOverlapText e ov st.currentContent
      currentTokens := cntTok e (getOverlapText e ov st.currentContent)
      startChar := st.charOffset - (getOverlapText e ov st.currentContent).length
      charOffset := st.charOffset }

/-- Append one unit (paragraph-with-break or sentence) to the buffer,
advancing the token count and the character offset. -/
def appendUnit {τ : Type} (e : Encoder τ) (st : ChunkState) (u : List Char) : ChunkState :=
  { st with currentContent := st.currentContent ++ u
            currentTokens := st.currentTokens + cntTok e u
            charOffset := st.charOffset + u.length }

/-- One iteration of the sentence loop (scenario B inner loop): flush
when the unit would overflow, then append it unconditionally. -/
def stepSentence {τ : Type} (e : Encoder τ) (mx ov : ℕ) (st : ChunkState)
    (s : List Char) : ChunkState :=
  appendUnit e
    (if mx < st.currentTokens + cntTok e s then flushChunk e ov st else st) s

/-- The scenario B / C dispatch of the paragraph loop, after the
scenario A flush check. -/
def stepParaB {τ : Type} (e : Encoder τ) (mx ov : ℕ) (st : ChunkState)
    (para : List Char) : ChunkState :=
  if mx < cntTok e (para ++ ['\n', '\n']) then
    { ((splitSentences para).foldl (stepSentence e mx ov)
        (if cntTok e (getOverlapText e ov st.currentContent) + 10 < st.currentTokens
         then flushChunk e ov st else st)) with
      currentContent := ((splitSentences para).foldl (stepSentence e mx ov)
        (if cntTok e (getOverlapText e ov st.currentContent) + 10 < st.currentTokens
         then flushChunk e ov st else st)).currentContent ++ ['\n', '\n']
      currentTokens := ((splitSentences para).foldl (stepSentence e mx ov)
        (if cntTok e (getOverlapText e ov st.currentContent) + 10 < st.currentTokens
         then flushChunk e ov st else st)).currentTokens + cntTok e ['\n', '\n']
      charOffset := ((splitSentences para).foldl (stepSentence e mx ov)
        (if cntTok e (getOverlapText e ov st.currentContent) + 10 < st.currentTokens
         then flushChunk e ov st else st)).charOffset + 2 }
  else appendUnit e st (para ++ ['\n', '\n'])

/-- One iteration of the paragraph loop of `TokenChunker.chunk`:
scenario A (flush when adding the paragraph would overflow and the
buffer's character length exceeds `overlapTokens + 10`), then the
scenario B / C dispatch. -/
def stepPara {τ : Type} (e : Encoder τ) (mx ov : ℕ) (st : ChunkState)
    (para : List Char) : ChunkState :=
  stepParaB e mx ov
    (if mx < st.currentTokens + cntTok e (para ++ ['\n', '\n']) ∧
        ov + 10 < st.currentContent.length
     then flushChunk e ov st else st) para

/-- The final emission of `TokenChunker.chunk`: the trailing buffer is
emitted only when it trims to something nonempty and is longer than 20
characters. -/
def finalizeChunks (st : ChunkState) : List TextChunk :=
  if jsTrim st.currentContent ≠ [] ∧ 20 < st.currentContent.length then
    st.chunks ++
      [{ index := st.chunks.length, content := jsTrim st.currentContent,
         tokenCount := st.currentTokens, startChar := st.startChar,
         endChar := st.charOffset }]
  else st.chunks

/-- `TokenChunker.chunk(text)` with limits `mx` (maxTokens) and `ov`
(overlapTokens). -/
def chunkText {τ : Type} (e : Encoder τ) (mx ov : ℕ) (text : List Char) : List TextChunk :=
  finalizeChunks
    ((splitParas (normalizeNewlines text)).foldl (stepPara e mx ov) ⟨[], [], 0, 0, 0⟩)

theorem cntTok_char (l : List Char) : cntTok charEncoder l = l.length := rfl

theorem charOverlap_length {l : List Char} {ov : ℕ} (hov : 1 ≤ ov) :
    (getOverlapText charEncoder ov l).length ≤ ov := by
  unfold getOverlapText
  split
  · next h => simpa using h
  · split
    · omega
    · next h _ =>
      show (l.drop (l.length - ov)).length ≤ ov
      rw [List.length_drop]
      simp only [charEncoder, id] at h
      omega

theorem jsTrim_eq_nil_iff (l : List Char) : jsTrim l = [] ↔ ∀ c ∈ l, isJsWs c := by
  unfold jsTrim
  rw [List.reverse_eq_nil_iff, List.dropWhile_eq_nil_iff]
  constructor
  · intro h c hc
    rcases List.mem_append.mp (by
        rw [List.takeWhile_append_dropWhile (p := isJsWs) (l := l)]
        exact hc :
        c ∈ l.takeWhile isJsWs ++ l.dropWhile isJsWs) with h1 | h2
    · exact List.mem_takeWhile_imp h1
    · exact h c (List.mem_reverse.mpr h2)
  · intro h c hc
    exact h c (List.Sublist.subset (List.dropWhile_sublist _) (List.mem_reverse.mp hc))

theorem jsTrim_append_ne {p : List Char} (hp : jsTrim p ≠ []) (x y : List Char) :
    jsTrim (x ++ (p ++ y)) ≠ [] := by
  intro hcontr
  apply hp
  rw [jsTrim_eq_nil_iff] at hcontr ⊢
  intro c hc
  exact hcontr c (by simp [hc])

/-- The invariant of the paragraph loop under the amended C5
hypotheses: every emitted chunk and the running buffer stay within
`maxTokens + overlapTokens + 10` tokens, the token count tracks the
buffer length (character-level tokenizer), and a buffer longer than
the `overlapTokens + 10` flush guard always trims to something
nonempty (so a pending flush really emits). -/
def ChunkInv (mx ov : ℕ) (st : ChunkState) : Prop :=
  (∀ ch ∈ st.chunks, ch.tokenCount ≤ mx + ov + 10) ∧
    st.currentTokens = st.currentContent.length ∧
    st.currentTokens ≤ mx + ov + 10 ∧
    (st.currentContent.length ≤ ov + 10 ∨ jsTrim st.currentContent ≠ [])

theorem flushChunk_real_inv {mx ov : ℕ} (hov : 1 ≤ ov) {st : ChunkState}
    (hinv : ChunkInv mx ov st) (htrim : jsTrim st.currentContent ≠ []) :
    ChunkInv mx ov (flushChunk charEncoder ov st) ∧
      (flushChunk charEncoder ov st).currentTokens ≤ ov ∧
      (flushChunk charEncoder ov st).chunks =
        st.chunks ++
          [{ index := st.chunks.length, content := jsTrim st.currentContent,
             tokenCount := st.currentTokens, startChar := st.startChar,
             endChar := st.charOffset }] := by
  obtain ⟨hchunks, hcur, hbound, _⟩ := hinv
  unfold flushChunk
  rw [if_neg htrim]
  have hovlen : (getOverlapText charEncoder ov st.currentContent).length ≤ ov :=
    charOverlap_length hov
  refine ⟨⟨?_, ?_, ?_, ?_⟩, ?_, rfl⟩ <;> dsimp only
  · intro ch hch
    rcases List.mem_append.mp hch with h1 | h2
    · exact hchunks ch h1
    · have heq : ch.tokenCount = st.currentTokens := by
        simp at h2
        rw [h2]
      omega
  · exact cntTok_char _
  · rw [cntTok_char]
    omega
  · left
    omega
  · rw [cntTok_char]
    omega

theorem flushChunk_trim_nil {τ : Type} (e : Encoder τ) (ov : ℕ) {st : ChunkState}
    (htrim : jsTrim st.currentContent = []) : flushChunk e ov st = st := by
  unfold flushChunk
  rw [if_pos htrim]

theorem stepPara_inv {mx ov : ℕ} (hov : 1 ≤ ov) {st : ChunkState} {para : List Char}
    (hinv : ChunkInv mx ov st) (hlen : para.length + 2 ≤ mx) (htrim : jsTrim para ≠ []) :
    ChunkInv mx ov (stepPara charEncoder mx ov st para) := by
  have hpt : cntTok charEncoder (para ++ ['\n', '\n']) = para.length + 2 := by
    rw [cntTok_char, List.length_append]
    rfl
  have hB : ¬ (mx < cntTok charEncoder (para ++ ['\n', '\n'])) := by omega
  obtain ⟨hchunks, hcur, hbound, hdisj⟩ := hinv
  unfold stepPara
  have hmain : ∀ st1 : ChunkState, ChunkInv mx ov st1 →
      st1.currentTokens + cntTok charEncoder (para ++ ['\n', '\n']) ≤ mx + ov + 10 →
      ChunkInv mx ov (stepParaB charEncoder mx ov st1 para) := by
    intro st1 hinv1 hsum
    obtain ⟨hchunks1, hcur1, hbound1, _⟩ := hinv1
    unfold stepParaB
    rw [if_neg hB]
    refine ⟨?_, ?_, ?_, ?_⟩ <;> dsimp only [appendUnit]
    · intro ch hch
      exact hchunks1 ch hch
    · rw [List.length_append, hpt, hcur1, List.length_append]
      rfl
    · exact hsum
    · right
      exact jsTrim_append_ne htrim st1.currentContent ['\n', '\n']
  split
  · next hA =>
    obtain ⟨hA1, hA2⟩ := hA
    have htrimst : jsTrim st.currentContent ≠ [] := by
      rcases hdisj with h1 | h2
      · omega
      · exact h2
    obtain ⟨hinvf, hcurf, _⟩ := flushChunk_real_inv hov ⟨hchunks, hcur, hbound, hdisj⟩ htrimst
    exact hmain _ hinvf (by omega)
  · next hA =>
    have hcase : st.currentTokens + cntTok charEncoder (para ++ ['\n', '\n']) ≤ mx + ov + 10 := by
      rw [hpt]
      by_cases h1 : mx < st.currentTokens + (para.length + 2)
      · have h2 : ¬ (ov + 10 < st.currentContent.length) := by
          intro hcontr
          exact hA ⟨by rwa [hpt], hcontr⟩
        omega
      · omega
    exact hmain st ⟨hchunks, hcur, hbound, hdisj⟩ hcase

theorem foldl_stepPara_inv {mx ov : ℕ} (hov : 1 ≤ ov) :
    ∀ (paras : List (List Char)) (st : ChunkState),
      (∀ p ∈ paras, p.length + 2 ≤ mx ∧ jsTrim p ≠ []) →
      ChunkInv mx ov st →
      ChunkInv mx ov (paras.foldl (stepPara charEncoder mx ov) st) := by
  intro paras
  induction paras with
  | nil => intro st _ hinv; exact hinv
  | cons para rest ih =>
    intro st hps hinv
    rw [List.foldl_cons]
    obtain ⟨h1, h2⟩ := hps para (List.mem_cons_self _ _)
    exact ih _ (fun p hp => hps p (List.mem_cons_of_mem _ hp)) (stepPara_inv hov hinv h1 h2)

/-- C5 (amended): with the character-level tokenizer, `overlapTokens ≥
1`, and no paragraph alone exceeding `maxTokens`, every chunk's
`tokenCount` is at most `maxTokens + overlapTokens + 10` — the
character-length flush guard allows overshoot of up to
`overlapTokens + 10` beyond `maxTokens`, and no per-document bound on
the number of over-limit chunks holds (see the counterexample). -/
theorem claim_C5_token_bound (mx ov : ℕ) (hov : 1 ≤ ov) (text : List Char)
    (hparas : ∀ p ∈ splitParas (normalizeNewlines text),
      p.length + 2 ≤ mx ∧ jsTrim p ≠ []) :
    ∀ ch ∈ chunkText charEncoder mx ov text, ch.tokenCount ≤ mx + ov + 10 := by
  have hinit : ChunkInv mx ov ⟨[], [], 0, 0, 0⟩ := by
    refine ⟨?_, rfl, ?_, ?_⟩
    · intro ch hch
      cases hch
    · show 0 ≤ mx + ov + 10
      omega
    · left
      show List.length [] ≤ ov + 10
      simp
  obtain ⟨hchunks, hcur, hbound, _⟩ :=
    foldl_stepPara_inv hov (splitParas (normalizeNewlines text)) ⟨[], [], 0, 0, 0⟩
      hparas hinit
  intro ch hch
  unfold chunkText finalizeChunks at hch
  split at hch
  · rcases List.mem_append.mp hch with h1 | h2
    · exact hchunks ch h1
    · have : ch.tokenCount =
          ((splitParas (normalizeNewlines text)).foldl (stepPara charEncoder mx ov)
            ⟨[], [], 0, 0, 0⟩).currentTokens := by
        simp at h2
        rw [h2]
      omega
  · exact hchunks ch hch

/-- Concrete input for the C5 counterexample: two paragraphs that are
each a single sentence longer than `maxTokens = 3`. -/
def c5Text : List Char := "aaaaa\n\nbbbbbbbbbbbbbbbbbbbbbbbbb".data

/-- Counterexample to C5 as stated: with `maxTokens = 3` and
`overlapTokens = 1`, the run on `c5Text` emits two chunks whose token
counts (7 and 28) both exceed `maxTokens` — not at most one oversized
atomic unit per document. -/
theorem claim_C5_counterexample :
    ((chunkText charEncoder 3 1 c5Text).map (fun ch => ch.tokenCount) = [7, 28]) ∧
      ¬ (((chunkText charEncoder 3 1 c5Text).filter
            (fun ch => 3 < ch.tokenCount)).length ≤ 1) := by
  decide

/-- Concrete input for the C5 witness: four ten-character paragraphs
under `maxTokens = 30`, `overlapTokens = 5` (the third paragraph
triggers a flush). -/
def c5WitnessText : List Char :=
  "aaaaaaaaaa\n\nbbbbbbbbbb\n\ncccccccccc\n\ndddddddddd".data

/-- The first chunk emitted on `c5WitnessText`. -/
def c5WitnessChunk : TextChunk :=
  ⟨0, "aaaaaaaaaa\n\nbbbbbbbbbb".data, 24, 0, 24⟩

/-- Witness for the amended C5 on a concrete run: the emitted chunk's
token count respects the `maxTokens + overlapTokens + 10` bound. -/
theorem claim_C5_witness :
    c5WitnessChunk ∈ chunkText charEncoder 30 5 c5WitnessText ∧
      c5WitnessChunk.tokenCount ≤ 30 + 5 + 10 :=
  ⟨by decide,
    claim_C5_token_bound 30 5 (by omega) c5WitnessText (by decide) c5WitnessChunk (by decide)⟩

/-- Sum of the buffer footprint of a paragraph list: each paragraph is
appended together with its two-newline break. -/
def paraSumLen (ps : List (List Char)) : ℕ :=
  (ps.map (fun p => p.length + 2)).sum

theorem splitParasAux_sum :
    ∀ (l acc : List Char) (pend : ℕ),
      paraSumLen (splitParasAux l acc pend) ≤ l.length + acc.length + pend + 2 := by
  intro l
  induction l with
  | nil =>
    intro acc pend
    unfold splitParasAux
    split
    · next h =>
      simp [paraSumLen]
      omega
    · split
      · next _ h =>
        simp [paraSumLen]
        omega
      · simp [paraSumLen]
  | cons c rest ih =>
    intro acc pend
    unfold splitParasAux
    split
    · have := ih acc (pend + 1)
      simp only [List.length_cons]
      omega
    · split
      · next _ h =>
        have := ih [c] 0
        simp [paraSumLen] at this ⊢
        omega
      · split
        · next _ _ h =>
          have := ih (c :: '\n' :: acc) 0
          simp only [List.length_cons] at *
          omega
        · have := ih (c :: acc) 0
          simp only [List.length_cons] at *
          omega

theorem splitParas_sum (l : List Char) : paraSumLen (splitParas l) ≤ l.length + 2 := by
  have := splitParasAux_sum l [] 0
  simpa [splitParas] using this

theorem normalizeNewlines_length : ∀ l : List Char, (normalizeNewlines l).length ≤ l.length := by
  intro l
  induction l with
  | nil => simp [normalizeNewlines]
  | cons c rest ih =>
    unfold normalizeNewlines
    split
    · simp only [List.length_cons]
      omega
    · simp only [List.length_cons]
      omega

theorem c6_fold {mx ov : ℕ} (hmx : ov + 2 ≤ mx) :
    ∀ (paras : List (List Char)) (st : ChunkState),
      st.currentTokens = st.currentContent.length →
      st.currentContent.length + paraSumLen paras ≤ ov + 1 →
      (paras.foldl (stepPara charEncoder mx ov) st).chunks = st.chunks ∧
        (paras.foldl (stepPara charEncoder mx ov) st).startChar = st.startChar ∧
        (paras.foldl (stepPara charEncoder mx ov) st).currentTokens =
          (paras.foldl (stepPara charEncoder mx ov) st).currentContent.length ∧
        (paras.foldl (stepPara charEncoder mx ov) st).currentContent.length =
          st.currentContent.length + paraSumLen paras := by
  intro paras
  induction paras with
  | nil =>
    intro st hcur _
    refine ⟨rfl, rfl, hcur, ?_⟩
    simp [paraSumLen]
  | cons para rest ih =>
    intro st hcur hbound
    have hsum : paraSumLen (para :: rest) = (para.length + 2) + paraSumLen rest := by
      simp [paraSumLen]
    have hpt : cntTok charEncoder (para ++ ['\n', '\n']) = para.length + 2 := by
      rw [cntTok_char, List.length_append]
      rfl
    have hstep : stepPara charEncoder mx ov st para =
        { st with currentContent := st.currentContent ++ (para ++ ['\n', '\n'])
                  currentTokens := st.currentTokens + cntTok charEncoder (para ++ ['\n', '\n'])
                  charOffset := st.charOffset + (para ++ ['\n', '\n']).length } := by
      unfold stepPara
      rw [if_neg (by
        rintro ⟨-, h2⟩
        omega)]
      unfold stepParaB
      rw [if_neg (by
        rw [hpt]
        omega)]
      rfl
    rw [List.foldl_cons, hstep]
    have hlen2 : (st.currentContent ++ (para ++ ['\n', '\n'])).length =
        st.currentContent.length + (para.length + 2) := by
      rw [List.length_append, List.length_append]
      rfl
    obtain ⟨g1, g2, g3, g4⟩ := ih
      { st with currentContent := st.currentContent ++ (para ++ ['\n', '\n'])
                currentTokens := st.currentTokens + cntTok charEncoder (para ++ ['\n', '\n'])
                charOffset := st.charOffset + (para ++ ['\n', '\n']).length }
      (by
        dsimp only
        rw [hpt, hlen2, hcur])
      (by
        dsimp only
        rw [hlen2]
        omega)
    refine ⟨g1, g2, g3, ?_⟩
    rw [g4]
    dsimp only
    rw [hlen2]
    omega

theorem chunkText_nil {τ : Type} (e : Encoder τ) (mx ov : ℕ) (henc : e.enc [] = []) :
    chunkText e mx ov [] = [] := by
  have ht0 : cntTok e [] = 0 := by simp [cntTok, henc]
  have hfin : ∀ st : ChunkState, st.chunks = [] → jsTrim st.currentContent = [] →
      finalizeChunks st = [] := by
    intro st h1 h2
    unfold finalizeChunks
    rw [if_neg (by rintro ⟨hc, -⟩; exact hc h2)]
    exact h1
  unfold chunkText
  have hps : splitParas (normalizeNewlines ([] : List Char)) = [[]] := rfl
  rw [hps, List.foldl_cons, List.foldl_nil]
  unfold stepPara
  rw [if_neg (by
    rintro ⟨-, h2⟩
    simp at h2)]
  unfold stepParaB
  split
  · rw [if_neg (by
      dsimp only
      omega)]
    have hss : splitSentences ([] : List Char) = [[]] := rfl
    rw [hss, List.foldl_cons, List.foldl_nil]
    unfold stepSentence
    rw [if_neg (by
      dsimp only
      rw [ht0]
      omega)]
    apply hfin
    · rfl
    · show jsTrim ((([] : List Char) ++ []) ++ ['\n', '\n']) = []
      decide
  · apply hfin
    · rfl
    · show jsTrim (([] : List Char) ++ ([] ++ ['\n', '\n'])) = []
      decide

/-- C6 (amended): the empty input yields zero chunks (for any tokenizer
that encodes the empty text to no tokens); and, with the
character-level tokenizer, a non-empty document whose token count is
below `overlapTokens` (with `overlapTokens + 2 ≤ maxTokens`) yields at
most one chunk, with no overlap applied (`startChar = 0`) — exactly one
only when the trailing buffer survives the final 20-character guard,
and zero otherwise (see the counterexample). -/
theorem claim_C6_edge_cases :
    (∀ (τ : Type) (e : Encoder τ) (mx ov : ℕ), e.enc [] = [] →
        chunkText e mx ov [] = []) ∧
      (∀ (mx ov : ℕ) (text : List Char), text ≠ [] → ov + 2 ≤ mx →
        cntTok charEncoder text < ov →
        (chunkText charEncoder mx ov text).length ≤ 1 ∧
          ∀ ch ∈ chunkText charEncoder mx ov text, ch.startChar = 0) := by
  constructor
  · intro τ e mx ov henc
    exact chunkText_nil e mx ov henc
  · intro mx ov text _ hmx htok
    rw [cntTok_char] at htok
    have hsum : paraSumLen (splitParas (normalizeNewlines text)) ≤ ov + 1 := by
      have h1 := splitParas_sum (normalizeNewlines text)
      have h2 := normalizeNewlines_length text
      omega
    obtain ⟨g1, g2, _, _⟩ := c6_fold hmx (splitParas (normalizeNewlines text))
      ⟨[], [], 0, 0, 0⟩ rfl (by simpa using hsum)
    constructor
    · unfold chunkText finalizeChunks
      split
      · rw [g1]
        simp
      · rw [g1]
        simp
    · intro ch hch
      unfold chunkText finalizeChunks at hch
      split at hch
      · rw [g1] at hch
        simp at hch
        rw [hch, g2]
      · rw [g1] at hch
        simp at hch

/-- Counterexample to C6 as stated: the non-empty five-character
document `aaaaa` has token count 5 < 500 = overlapTokens, yet `chunk`
yields zero chunks, not one — the trailing buffer is discarded by the
20-character guard. -/
theorem claim_C6_counterexample :
    "aaaaa".data ≠ [] ∧ cntTok charEncoder "aaaaa".data < 500 ∧
      chunkText charEncoder 20000 500 "aaaaa".data = [] := by
  decide

/-- Witness for the amended C6 on concrete runs. -/
theorem claim_C6_witness :
    chunkText charEncoder 502 500 [] = [] ∧
      (chunkText charEncoder 502 500 ("hello\n\nworld".data)).length ≤ 1 :=
  ⟨claim_C6_edge_cases.1 Char charEncoder 502 500 rfl,
    (claim_C6_edge_cases.2 502 500 ("hello\n\nworld".data) (by decide) (by omega) (by decide)).1⟩

/-! ## Batched extraction with a one-deep summary window
(`NovelAnalyzer.analyzeChunks`)

The extraction loop slices the task list into consecutive batches of
size `concurrency` and awaits each batch (`Promise.all`) before
starting the next; the `results` array is written only after a batch
completes, and each task evaluates `results[i-1]?.summary` when it
starts, i.e. against the state at its batch's start.  `extract i s`
is the (pure) analysis produced for chunk `i` when seeded with the
optional predecessor summary `s`, and `summ` projects a summary out of
an analysis. -/

/-- `for (let i = 0; i < tasks.length; i += concurrency)` batching:
consecutive slices of size `c`, with a structural fuel (one unit per
batch suffices since each batch consumes at least one element when
`1 ≤ c`). -/
def chunkListFuel {α : Type} : ℕ → ℕ → List α → List (List α)
  | _, _, [] => []
  | 0, _, _ :: _ => []
  | fuel + 1, c, x :: xs => (x :: xs).take c :: chunkListFuel fuel c ((x :: xs).drop c)

/-- The batches of a task list. -/
def batches {α : Type} (c : ℕ) (l : List α) : List (List α) :=
  chunkListFuel l.length c l

/-- Execute one batch: every index of the batch is written with the
analysis extracted from the predecessor summary as read from the
batch-start results array. -/
def applyBatch {A S : Type} (extract : ℕ → Option S → A) (summ : A → S)
    (res : ℕ → Option A) (batch : List ℕ) : ℕ → Option A :=
  fun j =>
    if j ∈ batch then
      some (extract j (if j = 0 then none else (res (j - 1)).map summ))
    else res j

/-- The extraction stage of `analyzeChunks` on `n` chunks with
concurrency `c`: strictly ordered batches over the results array. -/
def analyzeChunksModel {A S : Type} (extract : ℕ → Option S → A) (summ : A → S)
    (n c : ℕ) : ℕ → Option A :=
  (batches c (List.range n)).foldl (applyBatch extract summ) (fun _ => none)

/-- The analysis chunk `i` actually receives, as a recurrence: the
first chunk of each batch (index divisible by `c`) is seeded with the
true summary of its predecessor; every other chunk gets no seed. -/
def analysisAt {A S : Type} (extract : ℕ → Option S → A) (summ : A → S) (c : ℕ) : ℕ → A
  | 0 => extract 0 none
  | i + 1 =>
    extract (i + 1)
      (if (i + 1) % c = 0 then some (summ (analysisAt extract summ c i)) else none)

theorem range'_take : ∀ (n s k : ℕ), (List.range' s n).take k = List.range' s (min k n) := by
  intro n
  induction n with
  | zero => intro s k; simp
  | succ m ih =>
    intro s k
    cases k with
    | zero => simp
    | succ k0 =>
      rw [List.range'_succ, List.take_succ_cons, ih (s + 1) k0]
      have hmin : min (k0 + 1) (m + 1) = min k0 m + 1 := by omega
      rw [hmin, List.range'_succ]

theorem range'_drop : ∀ (n s k : ℕ), (List.range' s n).drop k = List.range' (s + k) (n - k) := by
  intro n
  induction n with
  | zero => intro s k; simp
  | succ m ih =>
    intro s k
    cases k with
    | zero => simp
    | succ k0 =>
      rw [List.range'_succ, List.drop_succ_cons, ih (s + 1) k0]
      have h1 : s + 1 + k0 = s + (k0 + 1) := by omega
      have h2 : m - k0 = m + 1 - (k0 + 1) := by omega
      rw [h1, h2]

theorem mod_ne_zero_between {c s j : ℕ} (hdvd : c ∣ s) (h1 : s < j) (h2 : j < s + c) :
    j % c ≠ 0 := by
  obtain ⟨q, hq⟩ := hdvd
  have hr : j = c * q + (j - c * q) := by omega
  rw [hr, Nat.mul_add_mod]
  have hlt : j - c * q < c := by omega
  rw [Nat.mod_eq_of_lt hlt]
  omega

theorem foldl_batches {A S : Type} (extract : ℕ → Option S → A) (summ : A → S)
    (n c : ℕ) (hc : 1 ≤ c) :
    ∀ (fuel s : ℕ) (res : ℕ → Option A), n - s ≤ fuel → c ∣ s →
      (∀ j, res j = if j < s ∧ j < n then some (analysisAt extract summ c j) else none) →
      ∀ j, ((chunkListFuel fuel c (List.range' s (n - s))).foldl (applyBatch extract summ) res) j =
        if j < n then some (analysisAt extract summ c j) else none := by
  intro fuel
  induction fuel with
  | zero =>
    intro s res hfuel _ hres j
    have hns : n - s = 0 := by omega
    rw [hns]
    show res j = _
    rw [hres j]
    by_cases hj : j < n
    · rw [if_pos ⟨by omega, hj⟩, if_pos hj]
    · rw [if_neg (by omega), if_neg hj]
  | succ fuel ih =>
    intro s res hfuel hdvd hres j
    by_cases hz : n - s = 0
    · rw [hz]
      show res j = _
      rw [hres j]
      by_cases hj : j < n
      · rw [if_pos ⟨by omega, hj⟩, if_pos hj]
      · rw [if_neg (by omega), if_neg hj]
    · obtain ⟨d, hd⟩ : ∃ d, n - s = d + 1 := ⟨n - s - 1, by omega⟩
      rw [hd, List.range'_succ]
      show ((((s :: List.range' (s + 1) d).take c ::
          chunkListFuel fuel c ((s :: List.range' (s + 1) d).drop c))).foldl
            (applyBatch extract summ) res) j = _
      have htake : (s :: List.range' (s + 1) d).take c = List.range' s (min c (d + 1)) := by
        rw [← List.range'_succ, range'_take]
      have hdrop : (s :: List.range' (s + 1) d).drop c = List.range' (s + c) (n - (s + c)) := by
        rw [← List.range'_succ, range'_drop]
        have heq : d + 1 - c = n - (s + c) := by omega
        rw [heq]
      rw [htake, hdrop, List.foldl_cons]
      have hresnext : ∀ j,
          applyBatch extract summ res (List.range' s (min c (d + 1))) j =
            if j < s + c ∧ j < n then some (analysisAt extract summ c j) else none := by
        intro j
        unfold applyBatch
        by_cases hmem : j ∈ List.range' s (min c (d + 1))
        · rw [if_pos hmem]
          obtain ⟨hjs, hjlt⟩ := List.mem_range'_1.mp hmem
          have hjn : j < n := by omega
          have hgoal : extract j (if j = 0 then none else (res (j - 1)).map summ) =
              analysisAt extract summ c j := by
            by_cases hj0 : j = 0
            · subst hj0
              rw [if_pos rfl]
              rfl
            · rw [if_neg hj0]
              obtain ⟨i, hji⟩ : ∃ i, j = i + 1 := ⟨j - 1, by omega⟩
              subst hji
              rw [show i + 1 - 1 = i from rfl]
              by_cases hjseq : i + 1 = s
              · rw [hres i, if_pos (show i < s ∧ i < n by omega)]
                have hmodz : (i + 1) % c = 0 := by
                  rw [hjseq]
                  exact Nat.mod_eq_zero_of_dvd hdvd
                simp only [analysisAt]
                rw [if_pos hmodz]
                rfl
              · have hjgt : s < i + 1 := by omega
                rw [hres i, if_neg (show ¬ (i < s ∧ i < n) by omega)]
                have hmodnz : (i + 1) % c ≠ 0 :=
                  mod_ne_zero_between hdvd hjgt (by omega)
                simp only [analysisAt]
                rw [if_neg hmodnz]
                rfl
          rw [hgoal, if_pos ⟨by omega, hjn⟩]
        · rw [if_neg hmem]
          rw [hres j]
          have hnotin : ¬ (s ≤ j ∧ j < s + min c (d + 1)) := by
            intro hcontr
            exact hmem (List.mem_range'_1.mpr ⟨hcontr.1, by omega⟩)
          by_cases hcase : j < s ∧ j < n
          · rw [if_pos hcase, if_pos ⟨by omega, hcase.2⟩]
          · rw [if_neg hcase]
            by_cases hcase2 : j < s + c ∧ j < n
            · exfalso
              apply hnotin
              constructor
              · omega
              · omega
            · rw [if_neg hcase2]
      exact ih (s + c) _ (by omega) (dvd_add hdvd (dvd_refl c)) hresnext j

/-- C7 (amended): the extraction stage runs in fixed-size batches of
size `concurrency`, strictly in chunk order (each batch reads only the
results of earlier batches), and produces the analysis of chunk `i` at
slot `i`; the first chunk of each batch is seeded with the true summary
of the immediately preceding chunk, while every other chunk receives
no predecessor summary at all (the batch-start read finds the slot
still unset), not a stale one. -/
theorem claim_C7_batched_window (A S : Type) (extract : ℕ → Option S → A) (summ : A → S)
    (n c : ℕ) (hc : 1 ≤ c) :
    ∀ j, analyzeChunksModel extract summ n c j =
      if j < n then some (analysisAt extract summ c j) else none := by
  intro j
  unfold analyzeChunksModel batches
  have hlen : (List.range n).length = n := List.length_range n
  have hrange : List.range n = List.range' 0 (n - 0) := by
    rw [List.range_eq_range']
    norm_num
  rw [hlen, hrange]
  exact foldl_batches extract summ n c hc n 0 (fun _ => none) (by omega) (dvd_zero c)
    (by intro j; rw [if_neg (by omega)]) j

/-- Counterexample to C7 as stated: on 2 chunks with concurrency 2 the
second chunk's extraction receives no predecessor summary (its seed,
recorded as the second component, is `none`), even though chunk 0's
summary (`0`) exists — not a (stale) predecessor summary. -/
theorem claim_C7_counterexample :
    analyzeChunksModel (fun i p => ((i, p) : ℕ × Option ℕ)) (fun a => a.1) 2 2 1 =
        some (1, none) ∧
      (analyzeChunksModel (fun i p => ((i, p) : ℕ × Option ℕ)) (fun a => a.1) 2 2 0).map
          (fun a => a.1) = some 0 ∧
      (((1 : ℕ), (none : Option ℕ)).2 ≠ some 0) := by
  decide

/-- Witness for the amended C7: with concurrency 1 (every chunk starts
its own batch) chunk 2 is produced at slot 2, seeded through the full
sliding window recurrence. -/
theorem claim_C7_witness :
    analyzeChunksModel (fun i p => ((i, p) : ℕ × Option ℕ)) (fun a => a.1) 3 1 2 =
      (if 2 < 3 then some (analysisAt (fun i p => ((i, p) : ℕ × Option ℕ)) (fun a => a.1) 1 2)
       else none) :=
  claim_C7_batched_window (ℕ × Option ℕ) ℕ (fun i p => (i, p)) (fun a => a.1) 3 1 (by omega) 2

end NovelProc
